import Mathlib

/-!
Verification development for the interacting-particle-system simulator
(`src/solver/mod.rs` and its supporting modules).

Modelling conventions, shared by all definitions below:

* Rust `u64`/`usize` values (states, vertices, counters) become `ℕ`;
  `f64` rates and times become `ℚ`, so rate bookkeeping is exact.
* Rust `HashSet<u64>` neighbor sets become `Finset ℕ`; the
  `HashMap<usize, u64>` of neighbor-state counts is represented by the
  multiset of neighbor states (the map's key-multiplicity content), so that
  a sum over the map's `(state, count)` entries weighted by `count` is the
  sum over the multiset.
* Fallible operations (Rust `panic!`, failed `assert`, `unwrap` on `None`)
  are modelled by an explicit `panic` outcome or by `Option.none`.
* The `rand` crate's `WeightedIndex` is modelled by the list of its
  weights.  `WeightedIndex::new` and `update_weights` report an error when
  given a negative weight, an empty list, or when the resulting total
  weight is zero; the solver translates some of those errors into panics
  and treats all-weights-zero as a termination signal, exactly as in
  `solver/mod.rs`.
* The random source is modelled as a stream `ℕ → ℚ` of draws consumed in
  program order (one standard-exponential variate and up to two weighted
  draws per loop iteration).  The claims under study are distribution
  independent.
-/

/-- The rule set of an interacting particle system, after
`solver/ips_rules.rs`.  States are the integers enumerated by
`all_states`; `get_vacuum_mutation_rate` and `get_neighbor_mutation_rate`
are the two primitive rate tables each concrete system overrides.  The
source's `all_states` returns a collection that is only ever iterated to
form sums or an indexed list, so it is modelled as a `List ℕ`. -/
structure IPSRules where
  all_states : List ℕ
  get_vacuum_mutation_rate : ℕ → ℕ → ℚ
  get_neighbor_mutation_rate : ℕ → ℕ → ℕ → ℚ

/-- Default implementation of `IPSRules::get_neighbor_reactivity`
(`ips_rules.rs` lines 56-64): the added rate at which `current` leaves its
state due to one neighbor in state `sender`, summed over all goal states. -/
def IPSRules.get_neighbor_reactivity (R : IPSRules) (current sender : ℕ) : ℚ :=
  (R.all_states.map (fun other => R.get_neighbor_mutation_rate current other sender)).sum

/-- Default implementation of `IPSRules::get_reactivity` (`ips_rules.rs`
lines 70-85).  `neighbor_counts` is the multiset of neighbor states; the
source iterates the count map and multiplies each rate by the count, which
equals summing the rate once per multiset occurrence. -/
def IPSRules.get_reactivity (R : IPSRules) (current : ℕ) (neighbor_counts : Multiset ℕ) : ℚ :=
  (R.all_states.map (fun goal =>
    R.get_vacuum_mutation_rate current goal
      + (neighbor_counts.map (fun s => R.get_neighbor_mutation_rate current goal s)).sum)).sum

/-- Default implementation of `IPSRules::get_mutation_rate` (`ips_rules.rs`
lines 91-100): one entry of the target-state categorical. -/
def IPSRules.get_mutation_rate (R : IPSRules) (current goal : ℕ) (neighbor_counts : Multiset ℕ) : ℚ :=
  R.get_vacuum_mutation_rate current goal
    + (neighbor_counts.map (fun s => R.get_neighbor_mutation_rate current goal s)).sum

/-- The voter process rule set (`ips_rules/voter_process.rs`).  The source
tests `goal.abs_diff(sender) > 0` (that is, `goal ≠ sender`) and
`current.abs_diff(goal) == 0` (that is, `current = goal`). -/
def VoterProcess (nr_parties : ℕ) (change_rate : ℚ) : IPSRules where
  all_states := List.range nr_parties
  get_vacuum_mutation_rate := fun _ _ => 0
  get_neighbor_mutation_rate := fun current goal sender =>
    if goal ≠ sender then 0
    else if current = goal then 0
    else change_rate

/-- The graph oracle of `solver/graph.rs`: a vertex count and a neighbor
set per vertex.  The source returns a `HashSet<u64>` that the solver only
ever iterates; the model presents the set through its iteration order as a
`List ℕ` (a set, so claims carry `Nodup` hypotheses where that matters).
All quantities the solver derives from it (count multisets, sums, pointwise
weight patches over distinct indices) are independent of that order. -/
structure Graph where
  nr_points : ℕ
  get_neighbors : ℕ → List ℕ

/-- The halting-condition enum of `solver/mod.rs` (lines 19-29). -/
inductive HaltCondition where
  | TimePassed (limit : ℚ)
  | StepsRecorded (limit : ℕ)
  | StepsTaken (limit : ℕ)
deriving DecidableEq, Repr

/-- Model of `HaltCondition::should_continue` (`solver/mod.rs` lines 34-46). -/
def HaltCondition.should_continue (self : HaltCondition)
    (time_passed : ℚ) (steps_recorded steps_taken : ℕ) : Bool :=
  match self with
  | HaltCondition.TimePassed limit => decide (time_passed < limit)
  | HaltCondition.StepsRecorded limit => decide (steps_recorded < limit)
  | HaltCondition.StepsTaken limit => decide (steps_taken ≤ limit)

/-- The record-condition enum of `solver/mod.rs` (lines 56-60). -/
inductive RecordCondition where
  | ConstantTime (time_interval : ℚ)
  | EveryNthStep (n : ℕ)
  | Final
deriving DecidableEq, Repr

/-- Model of `RecordCondition::how_often_record` (`solver/mod.rs` lines 64-81).
The `ConstantTime` arm casts the `f64` difference of floors with `as
usize`, which clamps negative values to zero: modelled by `Int.toNat`.
The `EveryNthStep` arm computes `steps_taken % n`; Rust panics on `n = 0`
while `ℕ` yields `steps_taken % 0 = steps_taken`, a divergence only at the
degenerate parameter `n = 0`, which no claim exercises. -/
def RecordCondition.how_often_record (self : RecordCondition)
    (time_passed time_step : ℚ) (steps_taken : ℕ) (is_final : Bool) : ℕ :=
  match self with
  | RecordCondition.ConstantTime time_interval =>
      (⌊time_passed / time_interval⌋ - ⌊(time_passed - time_step) / time_interval⌋).toNat
  | RecordCondition.EveryNthStep n => if steps_taken % n = 0 then 1 else 0
  | RecordCondition.Final => if is_final then 1 else 0

/-- Outcome of running the solver (or its loop): a panic, fuel exhaustion
(the model's stand-in for a loop that has not yet terminated), or a normal
return. -/
inductive RunResult (α : Type) where
  | panic
  | fuelOut
  | out (a : α)
deriving DecidableEq, Repr

/-- Index selection of the `rand` crate's `WeightedIndex` sampler: the
uniform draw `r ∈ [0, 1)` is scaled to `target = r · Σ weights`, and the
chosen index is the first whose cumulative weight prefix exceeds `target`.
Past-the-end targets (impossible for `r < 1` and nonnegative weights)
return the last index, and the empty list returns `0`; neither case is
reachable through the solver, which never builds an empty or all-zero
index. -/
def pickIndex : List ℚ → ℚ → ℕ
  | [], _ => 0
  | [_], _ => 0
  | w :: rest, t => if t < w then 0 else pickIndex rest (t - w) + 1

/-- Sample the weighted index with uniform draw `r`. -/
def sampleWeighted (ws : List ℚ) (r : ℚ) : ℕ :=
  pickIndex ws (r * ws.sum)

/-- The mutable simulation state owned by `particle_system_solver`:
configuration, reactivity vector, incrementally maintained total, flat
snapshot record, clocks and counters, the weighted index's weights, and
the position in the random stream. -/
structure LoopState where
  states : List ℕ
  reactivities : List ℚ
  total_reactivity : ℚ
  states_record : List ℕ
  time_passed : ℚ
  steps_recorded : ℕ
  steps_taken : ℕ
  weights : List ℚ
  rng_index : ℕ
deriving DecidableEq, Repr

/-- Outcome of one body of the `while` loop in `particle_system_solver`:
a panic, a `break` out of the loop carrying the state at the break, or a
normal fall-through to the next `while` test. -/
inductive StepResult where
  | panic
  | brk (st : LoopState)
  | next (st : LoopState)
deriving DecidableEq, Repr

/-- The borrowed inputs of `particle_system_solver`: rule set, graph,
halt and record policies, and the random stream. -/
structure SolverEnv where
  ips_rules : IPSRules
  graph : Graph
  halting_condition : HaltCondition
  record_condition : RecordCondition
  rng : ℕ → ℚ

/-- The vertex drawn from the location distribution in one loop iteration
(`solver/mod.rs` line 213): the weighted index is sampled with the second
random draw of the iteration. -/
def sampledVertex (env : SolverEnv) (st : LoopState) : ℕ :=
  sampleWeighted st.weights (env.rng (st.rng_index + 1))

/-- The multiset of the current states of the sampled vertex's neighbors
(`solver/mod.rs` lines 217-226, the `neigh_state_counts` map). -/
def neighborStates (env : SolverEnv) (st : LoopState) : Multiset ℕ :=
  ↑((env.graph.get_neighbors (sampledVertex env st)).map (fun j => st.states.getD j 0))

/-- The target-state categorical built in one loop iteration
(`solver/mod.rs` lines 229-235): one mutation rate per state of the rule
set, in `all_states` order. -/
def changeRates (env : SolverEnv) (st : LoopState) : List ℚ :=
  env.ips_rules.all_states.map (fun to_state =>
    env.ips_rules.get_mutation_rate (st.states.getD (sampledVertex env st) 0) to_state
      (neighborStates env st))

/-- One pass of the neighbor-repair loop (`solver/mod.rs` lines 266-279)
for the neighbor `n`: subtract the old spread rate of the mutated vertex's
previous state from `reactivities[n]` and from the running total, add the
new spread rate to both, and clamp `reactivities[n]` (but not the total)
at zero. -/
def repairOne (R : IPSRules) (old_particle_state new_state : ℕ) (states : List ℕ)
    (pr : List ℚ × ℚ) (n : ℕ) : List ℚ × ℚ :=
  let old_spread_rate := R.get_neighbor_reactivity (states.getD n 0) old_particle_state
  let r1 := pr.1.getD n 0 - old_spread_rate
  let t1 := pr.2 - old_spread_rate
  let new_spread_rate := R.get_neighbor_reactivity (states.getD n 0) new_state
  let r2 := r1 + new_spread_rate
  let t2 := t1 + new_spread_rate
  (pr.1.set n (if r2 < 0 then 0 else r2), t2)

/-- The state mutation and incremental rate repair of one event
(`solver/mod.rs` lines 247-279): write the new state, recompute the
mutated vertex's reactivity from scratch over the (recounted) neighbor
states, splice it into the total, then run the neighbor-repair loop.
Returns the new configuration, reactivity vector and total. -/
def applyEvent (R : IPSRules) (G : Graph) (states : List ℕ) (reactivities : List ℚ)
    (total_reactivity : ℚ) (update_location new_state : ℕ) : List ℕ × List ℚ × ℚ :=
  let states' := states.set update_location new_state
  let neighs := G.get_neighbors update_location
  let neigh_state_counts : Multiset ℕ := ↑(neighs.map (fun j => states'.getD j 0))
  let total1 := total_reactivity - reactivities.getD update_location 0
  let react_v := R.get_reactivity new_state neigh_state_counts
  let reacts1 := reactivities.set update_location react_v
  let total2 := total1 + react_v
  let old_particle_state := states.getD update_location 0
  let pr := neighs.foldl (repairOne R old_particle_state new_state states') (reacts1, total2)
  (states', pr.1, pr.2)

/-- The recording step at the end of one loop iteration (`solver/mod.rs`
lines 294-300): append the pre-event configuration `count` times, bumping
`steps_recorded` each time and stopping the batch early as soon as the
halting condition fails. -/
def recordBatch (env : SolverEnv) (prev_state : List ℕ) :
    ℕ → LoopState → LoopState
  | 0, st => st
  | count + 1, st =>
    let st' := { st with states_record := st.states_record ++ prev_state,
                         steps_recorded := st.steps_recorded + 1 }
    if env.halting_condition.should_continue st'.time_passed st'.steps_recorded st'.steps_taken
    then recordBatch env prev_state count st'
    else st'

/-- One body of the simulation `while` loop (`solver/mod.rs` lines
200-300), entered only when the halting condition allowed it.  Panics and
breaks mirror the source: an empty or negative-weight target-state
categorical panics (the `Err(other)` arm), an all-zero one breaks, and a
weight update driving the index to all-zero breaks.  The weight patches
are applied in iteration order; the source sorts them first, which does
not change the resulting weight list for the distinct indices produced by
a self-loop-free graph. -/
def loopBody (env : SolverEnv) (st : LoopState) : StepResult :=
  let steps_taken := st.steps_taken + 1
  let prev_state := st.states
  let time_step := env.rng st.rng_index / st.total_reactivity
  let time_passed := st.time_passed + time_step
  let update_location := sampledVertex env st
  let change_rates := changeRates env st
  if change_rates = [] then StepResult.panic
  else if change_rates.any (fun w => decide (w < 0)) then StepResult.panic
  else if change_rates.sum = 0 then
    StepResult.brk { st with time_passed := time_passed, steps_taken := steps_taken,
                             rng_index := st.rng_index + 3 }
  else
    let new_state := env.ips_rules.all_states.getD
      (sampleWeighted change_rates (env.rng (st.rng_index + 2))) 0
    let ev := applyEvent env.ips_rules env.graph st.states st.reactivities
      st.total_reactivity update_location new_state
    let neighs := env.graph.get_neighbors update_location
    let changing_weights := (update_location, ev.2.1.getD update_location 0) ::
      neighs.map (fun n => (n, ev.2.1.getD n 0))
    let weights' := changing_weights.foldl (fun ws p => ws.set p.1 p.2) st.weights
    if changing_weights.any (fun p => decide (p.2 < 0)) then StepResult.panic
    else if weights'.sum = 0 then
      StepResult.brk { states := ev.1, reactivities := ev.2.1, total_reactivity := ev.2.2,
                       states_record := st.states_record, time_passed := time_passed,
                       steps_recorded := st.steps_recorded, steps_taken := steps_taken,
                       weights := st.weights, rng_index := st.rng_index + 3 }
    else
      let st1 : LoopState :=
        { states := ev.1, reactivities := ev.2.1, total_reactivity := ev.2.2,
          states_record := st.states_record, time_passed := time_passed,
          steps_recorded := st.steps_recorded, steps_taken := steps_taken,
          weights := weights', rng_index := st.rng_index + 3 }
      StepResult.next (recordBatch env prev_state
        (env.record_condition.how_often_record time_passed time_step steps_taken false) st1)

/-- The simulation `while` loop (`solver/mod.rs` lines 200-301), with
explicit fuel standing in for nontermination. -/
def runLoop (env : SolverEnv) : ℕ → LoopState → RunResult LoopState
  | fuel, st =>
    if env.halting_condition.should_continue st.time_passed st.steps_recorded st.steps_taken then
      match fuel with
      | 0 => RunResult.fuelOut
      | fuel + 1 =>
        match loopBody env st with
        | StepResult.panic => RunResult.panic
        | StepResult.brk st' => RunResult.out st'
        | StepResult.next st' => runLoop env fuel st'
    else RunResult.out st

/-- The from-scratch reactivity vector computed in Phase I
(`solver/mod.rs` lines 161-178): for each vertex, the rule set's
reactivity of its state over the count multiset of its neighbors'
states. -/
def initialReactivities (env : SolverEnv) (initial_condition : List ℕ) : List ℚ :=
  (List.range env.graph.nr_points).map (fun i =>
    env.ips_rules.get_reactivity (initial_condition.getD i 0)
      ↑((env.graph.get_neighbors i).map (fun j => initial_condition.getD j 0)))

/-- Phase I of `particle_system_solver` (`solver/mod.rs` lines 149-197):
check the initial-condition length, compute the reactivity vector and its
sum, seed the record with a copy of the initial configuration and
`steps_recorded = 1`, and build the weighted index, panicking on any
build error (in particular when all weights are zero). -/
def initializeSolver (env : SolverEnv) (initial_condition : List ℕ) : RunResult LoopState :=
  if initial_condition.length ≠ env.graph.nr_points then RunResult.panic
  else
    let reactivities := initialReactivities env initial_condition
    if reactivities = [] then RunResult.panic
    else if reactivities.any (fun w => decide (w < 0)) then RunResult.panic
    else if reactivities.sum = 0 then RunResult.panic
    else RunResult.out
      { states := initial_condition, reactivities := reactivities,
        total_reactivity := reactivities.sum, states_record := initial_condition,
        time_passed := 0, steps_recorded := 1, steps_taken := 0,
        weights := reactivities, rng_index := 0 }

/-- Model of `particle_system_solver` (`solver/mod.rs` lines 141-309): Phase I,
the event loop, and the final `how_often_record`-guarded append of the
final configuration; returns the record, the final configuration, the
simulated time, and the two counters. -/
def particle_system_solver (env : SolverEnv) (initial_condition : List ℕ) (fuel : ℕ) :
    RunResult (List ℕ × List ℕ × ℚ × ℕ × ℕ) :=
  match initializeSolver env initial_condition with
  | RunResult.panic => RunResult.panic
  | RunResult.fuelOut => RunResult.fuelOut
  | RunResult.out st0 =>
    match runLoop env fuel st0 with
    | RunResult.panic => RunResult.panic
    | RunResult.fuelOut => RunResult.fuelOut
    | RunResult.out st =>
      let final_count := env.record_condition.how_often_record st.time_passed 0 st.steps_taken true
      RunResult.out
        (st.states_record ++ (List.replicate final_count st.states).flatten,
         st.states, st.time_passed, st.steps_recorded, st.steps_taken)

/-- The two-vertex graph with the single undirected edge 0-1: the
smallest concrete instance of the graph contract (symmetric, loop-free,
connected), used to instantiate the solver in witnesses and
counterexamples. -/
def pairGraph : Graph where
  nr_points := 2
  get_neighbors := fun v => if v = 0 then [1] else if v = 1 then [0] else []

/-- A constant random stream: every draw is 1/2. -/
def halfStream : ℕ → ℚ := fun _ => 1 / 2

/-- Concrete solver inputs: two-party voter process with change rate 1 on
`pairGraph`, halting after zero steps taken, recording only the final
configuration. -/
def envFinal : SolverEnv where
  ips_rules := VoterProcess 2 1
  graph := pairGraph
  halting_condition := HaltCondition.StepsTaken 0
  record_condition := RecordCondition.Final
  rng := halfStream

/-- The same inputs as `envFinal` but with a constant-time record
condition. -/
def envCT : SolverEnv :=
  { envFinal with record_condition := RecordCondition.ConstantTime 1000 }

/-- Characterization of a successful Phase I: the returned loop state
carries the from-scratch reactivities, their sum, the initial
configuration as both live state and first record entry, clock zero, one
recorded step, and zero taken steps. -/
lemma initializeSolver_out (env : SolverEnv) (init : List ℕ) (st0 : LoopState)
    (h : initializeSolver env init = RunResult.out st0) :
    st0.states = init ∧ st0.reactivities = initialReactivities env init
      ∧ st0.total_reactivity = (initialReactivities env init).sum
      ∧ st0.states_record = init ∧ st0.time_passed = 0 ∧ st0.steps_recorded = 1
      ∧ st0.steps_taken = 0 ∧ st0.weights = initialReactivities env init
      ∧ st0.rng_index = 0 := by
  simp only [initializeSolver] at h
  split at h
  · exact absurd h (by simp)
  · split at h
    · exact absurd h (by simp)
    · split at h
      · exact absurd h (by simp)
      · split at h
        · exact absurd h (by simp)
        · cases h
          simp

/-- Claim C2: for every argument tuple, `HaltCondition::should_continue`
returns true exactly when `time_passed < T` for `TimePassed(T)`,
`snapshots_recorded < S` for `StepsRecorded(S)`, and `events_taken ≤ E`
for `StepsTaken(E)`; only the events-taken variant is inclusive. -/
theorem claim_C2_should_continue (T : ℚ) (S E : ℕ) (t : ℚ) (s e : ℕ) :
    ((HaltCondition.TimePassed T).should_continue t s e = true ↔ t < T)
      ∧ ((HaltCondition.StepsRecorded S).should_continue t s e = true ↔ s < S)
      ∧ ((HaltCondition.StepsTaken E).should_continue t s e = true ↔ e ≤ E) := by
  refine ⟨?_, ?_, ?_⟩ <;> simp [HaltCondition.should_continue]

/-- Claim C1, counterexample: on the two-party voter process over the
two-vertex edge graph with the unanimous initial configuration, every
initial reactivity is zero, and `particle_system_solver` panics while
assembling the location distribution instead of terminating cleanly with
a two-snapshot record. -/
theorem claim_C1_counterexample :
    particle_system_solver envFinal [0, 0] 5 = RunResult.panic := by
  with_unfolding_all decide

/-- Claim C1, amended: if every entry of the initial reactivity vector is
zero (so the weighted-index build fails with all weights zero), the
solver panics — it does not return a record at all. -/
theorem claim_C1_zero_reactivity_panics (env : SolverEnv) (init : List ℕ) (fuel : ℕ)
    (h : ∀ r ∈ initialReactivities env init, r = 0) :
    particle_system_solver env init fuel = RunResult.panic := by
  have hinit : initializeSolver env init = RunResult.panic := by
    simp only [initializeSolver]
    split
    · rfl
    · split
      · rfl
      · split
        · rfl
        · split
          · rfl
          · next hsum => exact absurd (List.sum_eq_zero h) hsum
  simp only [particle_system_solver, hinit]

/-- Claim C1, witness for the amended theorem at a concrete input. -/
theorem claim_C1_witness : particle_system_solver envCT [0, 0] 5 = RunResult.panic :=
  claim_C1_zero_reactivity_panics envCT [0, 0] 5 (by with_unfolding_all decide)

/-- Claim C5, counterexample: at the end of Phase I on a concrete input,
`snapshots_recorded` is 1 (not 0) and the record already contains the
initial snapshot (it is not empty), so the first snapshot of the returned
record is appended by initialization, not by the record policy or the
finalization. -/
theorem claim_C5_counterexample :
    initializeSolver envFinal [0, 1]
        = RunResult.out (LoopState.mk [0, 1] [1, 1] 2 [0, 1] 0 1 0 [1, 1] 0)
      ∧ (LoopState.mk [0, 1] [1, 1] 2 [0, 1] 0 1 0 [1, 1] 0).steps_recorded ≠ 0
      ∧ (LoopState.mk [0, 1] [1, 1] 2 [0, 1] 0 1 0 [1, 1] 0).states_record ≠ [] := by
  with_unfolding_all decide

/-- Claim C5, amended: at the end of Phase I, before the first event-loop
iteration, `snapshots_recorded` equals 1 and the record contains exactly
the initial configuration (the source seeds the record with it); the
clock and the events counter start at zero.  Every later snapshot is
appended by the record policy during the loop or by finalization. -/
theorem claim_C5_initial_record (env : SolverEnv) (init : List ℕ) (st0 : LoopState)
    (h : initializeSolver env init = RunResult.out st0) :
    st0.steps_recorded = 1 ∧ st0.states_record = init
      ∧ st0.time_passed = 0 ∧ st0.steps_taken = 0 := by
  obtain ⟨-, -, -, h4, h5, h6, h7, -, -⟩ := initializeSolver_out env init st0 h
  exact ⟨h6, h4, h5, h7⟩

/-- Claim C5, witness for the amended theorem at a concrete input. -/
theorem claim_C5_witness :
    (LoopState.mk [0, 1] [1, 1] 2 [0, 1] 0 1 0 [1, 1] 0).steps_recorded = 1
      ∧ (LoopState.mk [0, 1] [1, 1] 2 [0, 1] 0 1 0 [1, 1] 0).states_record = [0, 1]
      ∧ (LoopState.mk [0, 1] [1, 1] 2 [0, 1] 0 1 0 [1, 1] 0).time_passed = 0
      ∧ (LoopState.mk [0, 1] [1, 1] 2 [0, 1] 0 1 0 [1, 1] 0).steps_taken = 0 :=
  claim_C5_initial_record envFinal [0, 1] _ (by with_unfolding_all decide)

/-- The record batch appends some number `m ≤ count` of copies of the
pre-event snapshot and bumps `steps_recorded` by `m`, touching no other
field. -/
lemma recordBatch_spec (env : SolverEnv) (prev : List ℕ) :
    ∀ (count : ℕ) (st : LoopState), ∃ m, m ≤ count ∧
      recordBatch env prev count st
        = { st with states_record := st.states_record ++ (List.replicate m prev).flatten,
                    steps_recorded := st.steps_recorded + m } := by
  intro count
  induction count with
  | zero => intro st; exact ⟨0, Nat.le_refl 0, by simp [recordBatch]⟩
  | succ n ih =>
    intro st
    simp only [recordBatch]
    split
    · obtain ⟨m, hm, hrec⟩ := ih _
      refine ⟨m + 1, by omega, ?_⟩
      rw [hrec]
      simp only [List.replicate_succ, List.flatten_cons, LoopState.mk.injEq, List.append_assoc,
        and_true, true_and]
      omega
    · refine ⟨1, by omega, ?_⟩
      simp [List.replicate_succ]

/-- Any non-panicking outcome of one loop body has `steps_taken` bumped by
exactly one and a record extending the previous record. -/
lemma loopBody_basic (env : SolverEnv) (st st' : LoopState)
    (h : loopBody env st = StepResult.brk st' ∨ loopBody env st = StepResult.next st') :
    st'.steps_taken = st.steps_taken + 1
      ∧ ∃ r, st'.states_record = st.states_record ++ r := by
  rcases h with h | h
  · simp only [loopBody] at h
    split at h
    · exact absurd h (by simp)
    · split at h
      · exact absurd h (by simp)
      · split at h
        · cases h; exact ⟨rfl, [], by simp⟩
        · split at h
          · exact absurd h (by simp)
          · split at h
            · cases h; exact ⟨rfl, [], by simp⟩
            · exact absurd h (by simp)
  · simp only [loopBody] at h
    split at h
    · exact absurd h (by simp)
    · split at h
      · exact absurd h (by simp)
      · split at h
        · exact absurd h (by simp)
        · split at h
          · exact absurd h (by simp)
          · split at h
            · exact absurd h (by simp)
            · cases h
              obtain ⟨m, -, hrec⟩ := recordBatch_spec env st.states
                (env.record_condition.how_often_record
                  (st.time_passed + env.rng st.rng_index / st.total_reactivity)
                  (env.rng st.rng_index / st.total_reactivity) (st.steps_taken + 1) false) _
              rw [hrec]
              exact ⟨rfl, (List.replicate m st.states).flatten, rfl⟩

/-- Length of the concatenation of `k` copies of one snapshot. -/
lemma flatten_replicate_length (k : ℕ) (l : List ℕ) :
    ((List.replicate k l).flatten).length = k * l.length := by
  induction k with
  | zero => simp
  | succ n ih => simp [List.replicate_succ, ih, Nat.succ_mul, Nat.add_comm]

/-- With halting condition `StepsTaken(0)`, the loop runs exactly one
body: the state it returns has `steps_taken = 1` and a record extending
the seed record. -/
lemma runLoop_steps_taken_zero (env : SolverEnv) (st0 stf : LoopState) (fuel : ℕ)
    (hhalt : env.halting_condition = HaltCondition.StepsTaken 0)
    (htk0 : st0.steps_taken = 0)
    (h : runLoop env fuel st0 = RunResult.out stf) :
    stf.steps_taken = 1 ∧ ∃ r, stf.states_record = st0.states_record ++ r := by
  unfold runLoop at h
  rw [hhalt] at h
  simp only [HaltCondition.should_continue, htk0] at h
  norm_num at h
  cases fuel with
  | zero => exact absurd h (by simp)
  | succ fuel =>
    simp only [] at h
    cases hb : loopBody env st0 with
    | panic => rw [hb] at h; exact absurd h (by simp)
    | brk st' =>
      rw [hb] at h
      simp only [] at h
      obtain ⟨h1, r, h2⟩ := loopBody_basic env st0 st' (Or.inl hb)
      have hst : st' = stf := by simpa using h
      subst hst
      exact ⟨by omega, r, h2⟩
    | next st' =>
      rw [hb] at h
      simp only [] at h
      obtain ⟨h1, r, h2⟩ := loopBody_basic env st0 st' (Or.inr hb)
      unfold runLoop at h
      rw [hhalt] at h
      simp only [HaltCondition.should_continue, h1] at h
      norm_num at h
      have hst : st' = stf := by simpa using h
      subst hst
      exact ⟨by omega, r, h2⟩

/-- Claim C3, counterexample: a concrete voter-process run with halting
condition StepsTaken(0) in which the solver takes one event (not zero)
and returns a record of two snapshots (not one): the seeded initial
snapshot followed by the final configuration. -/
theorem claim_C3_counterexample :
    particle_system_solver envFinal [0, 1] 5
      = RunResult.out ([0, 1, 0, 0], [0, 0], 1/4, 1, 1) := by
  with_unfolding_all decide

/-- Claim C3, amended: with halting condition `StepsTaken(0)`, every run
that returns has taken exactly one event (the inclusive comparison admits
one event past the zero budget), and the returned record starts with the
initial configuration as its first snapshot rather than consisting of
exactly one snapshot. -/
theorem claim_C3_steps_taken_zero (env : SolverEnv) (init : List ℕ) (fuel : ℕ)
    (rec fin : List ℕ) (tp : ℚ) (sr st : ℕ)
    (hhalt : env.halting_condition = HaltCondition.StepsTaken 0)
    (h : particle_system_solver env init fuel = RunResult.out (rec, fin, tp, sr, st)) :
    st = 1 ∧ rec.take init.length = init := by
  simp only [particle_system_solver] at h
  cases hin : initializeSolver env init with
  | panic => rw [hin] at h; exact absurd h (by simp)
  | fuelOut => rw [hin] at h; exact absurd h (by simp)
  | out st0 =>
    rw [hin] at h
    simp only [] at h
    obtain ⟨-, -, -, hrec0, -, -, htk0, -, -⟩ := initializeSolver_out env init st0 hin
    cases hrun : runLoop env fuel st0 with
    | panic => rw [hrun] at h; exact absurd h (by simp)
    | fuelOut => rw [hrun] at h; exact absurd h (by simp)
    | out stf =>
      rw [hrun] at h
      simp only [] at h
      obtain ⟨h1, r, h2⟩ := runLoop_steps_taken_zero env st0 stf fuel hhalt htk0 hrun
      simp only [RunResult.out.injEq, Prod.mk.injEq] at h
      obtain ⟨hr, -, -, -, hst⟩ := h
      refine ⟨by omega, ?_⟩
      rw [← hr, h2, hrec0, List.append_assoc]
      exact List.take_left _ _

/-- Claim C3, witness for the amended theorem at a concrete input. -/
theorem claim_C3_witness :
    (1 : ℕ) = 1 ∧ ([0, 1, 0, 0] : List ℕ).take ([0, 1] : List ℕ).length = [0, 1] :=
  claim_C3_steps_taken_zero envFinal [0, 1] 5 [0, 1, 0, 0] [0, 0] (1/4) 1 1 rfl
    (by with_unfolding_all decide)

/-- Claim C4, counterexample: a concrete run with record condition
`ConstantTime(1000)` whose returned record does not end with the final
configuration: Phase III appended nothing, because `how_often_record`
with `time_step = 0` returns zero for the constant-time policy. -/
theorem claim_C4_counterexample :
    particle_system_solver envCT [0, 1] 5 = RunResult.out ([0, 1], [0, 0], 1/4, 1, 1)
      ∧ ([0, 1] : List ℕ).drop (([0, 1] : List ℕ).length - ([0, 0] : List ℕ).length)
          ≠ [0, 0] := by
  with_unfolding_all decide

/-- Claim C4, amended: after the event loop ends the solver appends the
final configuration `how_often_record(time_passed, 0, steps_taken, true)`
times, not unconditionally once: the returned record ends with exactly
that many copies of the final configuration, and for `ConstantTime(τ)`
that count is always zero, so the final configuration is not appended. -/
theorem claim_C4_final_append (env : SolverEnv) (init : List ℕ) (fuel : ℕ)
    (rec fin : List ℕ) (tp : ℚ) (sr st : ℕ) (ti : ℚ)
    (h : particle_system_solver env init fuel = RunResult.out (rec, fin, tp, sr, st)) :
    rec.drop (rec.length - (env.record_condition.how_often_record tp 0 st true) * fin.length)
        = (List.replicate (env.record_condition.how_often_record tp 0 st true) fin).flatten
      ∧ (RecordCondition.ConstantTime ti).how_often_record tp 0 st true = 0 := by
  constructor
  · simp only [particle_system_solver] at h
    cases hin : initializeSolver env init with
    | panic => rw [hin] at h; exact absurd h (by simp)
    | fuelOut => rw [hin] at h; exact absurd h (by simp)
    | out st0 =>
      rw [hin] at h
      simp only [] at h
      cases hrun : runLoop env fuel st0 with
      | panic => rw [hrun] at h; exact absurd h (by simp)
      | fuelOut => rw [hrun] at h; exact absurd h (by simp)
      | out stf =>
        rw [hrun] at h
        simp only [RunResult.out.injEq, Prod.mk.injEq] at h
        obtain ⟨hr, hf, ht, -, hst⟩ := h
        subst ht hst
        rw [← hr, ← hf, List.length_append, flatten_replicate_length,
          Nat.add_sub_cancel]
        exact List.drop_left _ _
  · simp [RecordCondition.how_often_record]

/-- Claim C4, witness for the amended theorem at a concrete input. -/
theorem claim_C4_witness :
    ([0, 1, 0, 0] : List ℕ).drop (([0, 1, 0, 0] : List ℕ).length
          - (envFinal.record_condition.how_often_record (1/4) 0 1 true)
            * ([0, 0] : List ℕ).length)
        = (List.replicate (envFinal.record_condition.how_often_record (1/4) 0 1 true)
            ([0, 0] : List ℕ)).flatten
      ∧ (RecordCondition.ConstantTime 1000).how_often_record (1/4) 0 1 true = 0 :=
  claim_C4_final_append envFinal [0, 1] 5 [0, 1, 0, 0] [0, 0] (1/4) 1 1 1000
    (by with_unfolding_all decide)

/-- Claim C10: if the target-state categorical at the sampled vertex is
all zero (and nonempty and nonnegative, so the weighted-index build
reports AllWeightsZero), the loop body breaks and the loop returns with
the configuration untouched but with `events_taken` already incremented
and `time_passed` already advanced by the sampled time step: the aborted
event consumes simulated time and is counted. -/
theorem claim_C10_aborted_event (env : SolverEnv) (st : LoopState) (fuel : ℕ)
    (hcont : env.halting_condition.should_continue
      st.time_passed st.steps_recorded st.steps_taken = true)
    (hne : env.ips_rules.all_states ≠ [])
    (hzero : ∀ r ∈ changeRates env st, r = 0) :
    runLoop env (fuel + 1) st = RunResult.out
      { st with time_passed := st.time_passed + env.rng st.rng_index / st.total_reactivity,
                steps_taken := st.steps_taken + 1, rng_index := st.rng_index + 3 } := by
  unfold runLoop
  rw [hcont]
  simp only [if_true]
  have hb : loopBody env st = StepResult.brk
      { st with time_passed := st.time_passed + env.rng st.rng_index / st.total_reactivity,
                steps_taken := st.steps_taken + 1, rng_index := st.rng_index + 3 } := by
    simp only [loopBody]
    rw [if_neg, if_neg, if_pos]
    · exact List.sum_eq_zero hzero
    · simp only [List.any_eq_true, not_exists, not_and]
      intro r hr
      simp [hzero r hr]
    · simpa [changeRates] using hne
  rw [hb]

/-- Claim C10, concrete loop state for the witness: a one-party voter
process, whose target-state categorical is identically zero. -/
def stuckState : LoopState := LoopState.mk [0, 0] [0, 0] 1 [0, 0] 0 1 0 [1, 1] 0

/-- Claim C10, concrete solver inputs for the witness. -/
def envStuck : SolverEnv where
  ips_rules := VoterProcess 1 1
  graph := pairGraph
  halting_condition := HaltCondition.TimePassed 1
  record_condition := RecordCondition.Final
  rng := halfStream

/-- Claim C10, witness at a concrete input. -/
theorem claim_C10_witness :
    runLoop envStuck 1 stuckState = RunResult.out
      { stuckState with
          time_passed := stuckState.time_passed
            + envStuck.rng stuckState.rng_index / stuckState.total_reactivity,
          steps_taken := stuckState.steps_taken + 1,
          rng_index := stuckState.rng_index + 3 } :=
  claim_C10_aborted_event envStuck stuckState 0 (by with_unfolding_all decide)
    (by with_unfolding_all decide) (by with_unfolding_all decide)

/-- Reading a just-written entry of a list. -/
lemma getD_set_self {α : Type} (l : List α) (i : ℕ) (a d : α) (h : i < l.length) :
    (l.set i a).getD i d = a := by
  rw [List.getD_eq_getElem?_getD, List.getElem?_set_eq_of_lt a h, Option.getD_some]

/-- Writing one entry of a list leaves the others unchanged. -/
lemma getD_set_ne {α : Type} (l : List α) {i j : ℕ} (a : α) (d : α) (h : i ≠ j) :
    (l.set i a).getD j d = l.getD j d := by
  rw [List.getD_eq_getElem?_getD, List.getElem?_set_ne h, ← List.getD_eq_getElem?_getD]

/-- A list sum of pointwise sums splits. -/
lemma sum_map_add {α : Type} (l : List α) (f g : α → ℚ) :
    (l.map (fun x => f x + g x)).sum = (l.map f).sum + (l.map g).sum := by
  induction l with
  | nil => simp
  | cons a l ih =>
    simp only [List.map_cons, List.sum_cons, ih]
    ring

/-- The reactivity of a state splits into its total vacuum rate plus one
neighbor-reactivity contribution per neighbor occurrence. -/
lemma get_reactivity_split (R : IPSRules) (current : ℕ) (M : Multiset ℕ) :
    R.get_reactivity current M
      = (R.all_states.map (R.get_vacuum_mutation_rate current)).sum
        + (M.map (R.get_neighbor_reactivity current)).sum := by
  unfold IPSRules.get_reactivity
  rw [sum_map_add]
  congr 1
  unfold IPSRules.get_neighbor_reactivity
  induction R.all_states with
  | nil => simp
  | cons a l ih =>
    simp only [List.map_cons, List.sum_cons, ih, ← Multiset.sum_map_add]

/-- Nonnegative rate tables give nonnegative reactivities. -/
lemma get_reactivity_nonneg (R : IPSRules) (current : ℕ) (M : Multiset ℕ)
    (hvac : ∀ c t, 0 ≤ R.get_vacuum_mutation_rate c t)
    (hnbr : ∀ c t s, 0 ≤ R.get_neighbor_mutation_rate c t s) :
    0 ≤ R.get_reactivity current M := by
  unfold IPSRules.get_reactivity
  apply List.sum_nonneg
  intro x hx
  obtain ⟨goal, -, rfl⟩ := List.mem_map.mp hx
  apply add_nonneg (hvac _ _)
  apply Multiset.sum_nonneg
  intro y hy
  obtain ⟨s, -, rfl⟩ := Multiset.mem_map.mp hy
  exact hnbr _ _ _

/-- The from-scratch reactivity of vertex `i` under configuration `cfg`:
the sum over all goal states of the mutation rate toward that goal given
the neighbor-state counts of `i`, exactly the row sum the spec quantifies
over (and definitionally equal to the source's `get_reactivity` of the
vertex's state over those counts). -/
def scratchReactivity (R : IPSRules) (G : Graph) (cfg : List ℕ) (i : ℕ) : ℚ :=
  (R.all_states.map (fun goal =>
    R.get_mutation_rate (cfg.getD i 0) goal
      ↑((G.get_neighbors i).map (fun j => cfg.getD j 0)))).sum

/-- The from-scratch row sum is the source's `get_reactivity`. -/
lemma scratchReactivity_eq (R : IPSRules) (G : Graph) (cfg : List ℕ) (i : ℕ) :
    scratchReactivity R G cfg i
      = R.get_reactivity (cfg.getD i 0) ↑((G.get_neighbors i).map (fun j => cfg.getD j 0)) :=
  rfl

/-- A configuration change that touches neither a vertex nor its
neighborhood leaves its from-scratch reactivity unchanged. -/
lemma scratchReactivity_congr (R : IPSRules) (G : Graph) (cfg cfg' : List ℕ) (i : ℕ)
    (hcur : cfg'.getD i 0 = cfg.getD i 0)
    (hnb : ∀ j ∈ G.get_neighbors i, cfg'.getD j 0 = cfg.getD j 0) :
    scratchReactivity R G cfg' i = scratchReactivity R G cfg i := by
  unfold scratchReactivity
  rw [hcur, List.map_congr_left hnb]

/-- Writing state `g` at vertex `v` changes the from-scratch reactivity of
each vertex `n` adjacent to `v` (with `v` occurring once in `n`'s
neighbor list) by the neighbor-reactivity delta the solver's repair loop
applies. -/
lemma scratchReactivity_set (R : IPSRules) (G : Graph) (cfg : List ℕ) (v g n : ℕ)
    (hvn : v ≠ n) (hmem : v ∈ G.get_neighbors n) (hnodup : (G.get_neighbors n).Nodup)
    (hvlen : v < cfg.length) :
    scratchReactivity R G (cfg.set v g) n
      = scratchReactivity R G cfg n
        - R.get_neighbor_reactivity (cfg.getD n 0) (cfg.getD v 0)
        + R.get_neighbor_reactivity (cfg.getD n 0) g := by
  obtain ⟨l₁, l₂, hL⟩ := List.append_of_mem hmem
  have hv₁ : v ∉ l₁ := by
    intro hc
    have := hnodup
    rw [hL] at this
    exact (List.disjoint_of_nodup_append this) hc (List.mem_cons_self v l₂)
  have hv₂ : v ∉ l₂ := by
    have := hnodup
    rw [hL] at this
    have := (List.nodup_append.mp this).2.1
    exact (List.nodup_cons.mp this).1
  have hset_n : (cfg.set v g).getD n 0 = cfg.getD n 0 := getD_set_ne cfg g 0 hvn
  have hmap : ∀ (l : List ℕ), v ∉ l →
      l.map (fun j => (cfg.set v g).getD j 0) = l.map (fun j => cfg.getD j 0) := by
    intro l hl
    apply List.map_congr_left
    intro j hj
    exact getD_set_ne cfg g 0 (fun hvj => hl (hvj ▸ hj))
  rw [scratchReactivity_eq, scratchReactivity_eq, hset_n, hL]
  simp only [List.map_append, List.map_cons, getD_set_self cfg v g 0 hvlen,
    hmap l₁ hv₁, hmap l₂ hv₂]
  rw [get_reactivity_split, get_reactivity_split]
  simp only [Multiset.map_coe, Multiset.sum_coe, List.map_append, List.map_cons,
    List.sum_append, List.sum_cons]
  ring

/-- The weighted-index sampler returns an index inside the weight list. -/
lemma pickIndex_lt (ws : List ℚ) (t : ℚ) (h : ws ≠ []) : pickIndex ws t < ws.length := by
  induction ws generalizing t with
  | nil => exact absurd rfl h
  | cons w rest ih =>
    cases rest with
    | nil => simp [pickIndex]
    | cons w' rest' =>
      rw [pickIndex]
      · split
        · simp
        · have := ih (t - w) (List.cons_ne_nil w' rest')
          simp only [List.length_cons] at this ⊢
          omega
      · simp

/-- Effect of the neighbor-repair loop folded over a duplicate-free list
of in-range neighbor indices: every listed index receives the clamped
old-spread/new-spread delta computed from the starting vector, every
other index is untouched, the length is preserved, and the running total
accumulates the unclamped deltas. -/
lemma repair_fold (R : IPSRules) (old g : ℕ) (states' : List ℕ) (L : List ℕ) :
    ∀ (reacts : List ℚ) (total : ℚ), L.Nodup → (∀ n ∈ L, n < reacts.length) →
      (L.foldl (repairOne R old g states') (reacts, total)).1.length = reacts.length
      ∧ (∀ i, i ∉ L →
          (L.foldl (repairOne R old g states') (reacts, total)).1.getD i 0 = reacts.getD i 0)
      ∧ (∀ n ∈ L,
          (L.foldl (repairOne R old g states') (reacts, total)).1.getD n 0 =
            if reacts.getD n 0 - R.get_neighbor_reactivity (states'.getD n 0) old
                + R.get_neighbor_reactivity (states'.getD n 0) g < 0
            then 0
            else reacts.getD n 0 - R.get_neighbor_reactivity (states'.getD n 0) old
                + R.get_neighbor_reactivity (states'.getD n 0) g)
      ∧ (L.foldl (repairOne R old g states') (reacts, total)).2
          = total + (L.map (fun n =>
              R.get_neighbor_reactivity (states'.getD n 0) g
                - R.get_neighbor_reactivity (states'.getD n 0) old)).sum := by
  induction L with
  | nil => intro reacts total _ _; simp
  | cons a L ih =>
    intro reacts total hnodup hlen
    obtain ⟨hnal, hLnodup⟩ := List.nodup_cons.mp hnodup
    have ha : a < reacts.length := hlen a (List.mem_cons_self a L)
    rw [List.foldl_cons]
    have hfst : (repairOne R old g states' (reacts, total) a).1
        = reacts.set a
            (if reacts.getD a 0 - R.get_neighbor_reactivity (states'.getD a 0) old
                + R.get_neighbor_reactivity (states'.getD a 0) g < 0
             then 0
             else reacts.getD a 0 - R.get_neighbor_reactivity (states'.getD a 0) old
                + R.get_neighbor_reactivity (states'.getD a 0) g) := rfl
    have hsnd : (repairOne R old g states' (reacts, total) a).2
        = total - R.get_neighbor_reactivity (states'.getD a 0) old
            + R.get_neighbor_reactivity (states'.getD a 0) g := rfl
    have hlen1 : ∀ n ∈ L, n < (repairOne R old g states' (reacts, total) a).1.length := by
      intro n hn
      rw [hfst, List.length_set]
      exact hlen n (List.mem_cons_of_mem a hn)
    have hpair : repairOne R old g states' (reacts, total) a
        = ((repairOne R old g states' (reacts, total) a).1,
           (repairOne R old g states' (reacts, total) a).2) := rfl
    obtain ⟨ihlen, ihout, ihin, ihtot⟩ :=
      ih (repairOne R old g states' (reacts, total) a).1
        (repairOne R old g states' (reacts, total) a).2 hLnodup hlen1
    rw [hpair]
    refine ⟨?_, ?_, ?_, ?_⟩
    · rw [ihlen, hfst, List.length_set]
    · intro i hi
      have hia : a ≠ i := fun hc => hi (hc ▸ List.mem_cons_self a L)
      rw [ihout i (fun hc => hi (List.mem_cons_of_mem a hc)), hfst, getD_set_ne _ _ _ hia]
    · intro n hn
      rcases List.mem_cons.mp hn with hna | hnL
      · subst hna
        rw [ihout n hnal, hfst, getD_set_self _ _ _ _ ha]
      · have han : a ≠ n := fun hc => hnal (hc ▸ hnL)
        rw [ihin n hnL, hfst, getD_set_ne _ _ _ han]
    · rw [ihtot, hsnd, List.map_cons, List.sum_cons]
      ring

/-- Correctness of the incremental rate repair of one event: on a
symmetric, self-loop-free graph with in-range duplicate-free neighbor
lists and nonnegative rate tables, if the reactivity vector equals the
from-scratch row sums and the total equals their sum, then after
`applyEvent` both invariants hold for the mutated configuration. -/
lemma applyEvent_invariant (R : IPSRules) (G : Graph) (cfg : List ℕ) (reacts : List ℚ)
    (total : ℚ) (v g : ℕ)
    (hsym : ∀ i j, i ∈ G.get_neighbors j ↔ j ∈ G.get_neighbors i)
    (hself : ∀ i, i ∉ G.get_neighbors i)
    (hnodup : ∀ i, (G.get_neighbors i).Nodup)
    (hsub : ∀ i, ∀ j ∈ G.get_neighbors i, j < G.nr_points)
    (hvac : ∀ c t, 0 ≤ R.get_vacuum_mutation_rate c t)
    (hnbr : ∀ c t s, 0 ≤ R.get_neighbor_mutation_rate c t s)
    (hclen : cfg.length = G.nr_points) (hrlen : reacts.length = G.nr_points)
    (hv : v < G.nr_points)
    (hinv : ∀ i < G.nr_points, reacts.getD i 0 = scratchReactivity R G cfg i)
    (htot : total = ∑ i in Finset.range G.nr_points, scratchReactivity R G cfg i) :
    (applyEvent R G cfg reacts total v g).1 = cfg.set v g
    ∧ (applyEvent R G cfg reacts total v g).2.1.length = G.nr_points
    ∧ (∀ i < G.nr_points, (applyEvent R G cfg reacts total v g).2.1.getD i 0
        = scratchReactivity R G (cfg.set v g) i)
    ∧ (applyEvent R G cfg reacts total v g).2.2
        = ∑ i in Finset.range G.nr_points, scratchReactivity R G (cfg.set v g) i := by
  have hvlen : v < cfg.length := hclen ▸ hv
  have hvr : v < reacts.length := hrlen ▸ hv
  have hvL : v ∉ G.get_neighbors v := hself v
  have hnv : ∀ n ∈ G.get_neighbors v, v ≠ n := by
    intro n hn hc
    exact hvL (hc ▸ hn)
  have hreactv :
      R.get_reactivity g
          ↑((G.get_neighbors v).map (fun j => (cfg.set v g).getD j 0))
        = scratchReactivity R G (cfg.set v g) v := by
    rw [scratchReactivity_eq, getD_set_self cfg v g 0 hvlen]
  have hcfg'n : ∀ n ∈ G.get_neighbors v, (cfg.set v g).getD n 0 = cfg.getD n 0 := by
    intro n hn
    exact getD_set_ne cfg g 0 (hnv n hn)
  have hr1n : ∀ n ∈ G.get_neighbors v,
      (reacts.set v (R.get_reactivity g
        ↑((G.get_neighbors v).map (fun j => (cfg.set v g).getD j 0)))).getD n 0
        = reacts.getD n 0 := by
    intro n hn
    exact getD_set_ne reacts _ 0 (hnv n hn)
  have hscr : ∀ n ∈ G.get_neighbors v,
      scratchReactivity R G (cfg.set v g) n
        = scratchReactivity R G cfg n
          - R.get_neighbor_reactivity (cfg.getD n 0) (cfg.getD v 0)
          + R.get_neighbor_reactivity (cfg.getD n 0) g := by
    intro n hn
    exact scratchReactivity_set R G cfg v g n (hnv n hn) ((hsym n v).mp hn) (hnodup n) hvlen
  have hscr0 : ∀ i, 0 ≤ scratchReactivity R G (cfg.set v g) i := by
    intro i
    rw [scratchReactivity_eq]
    exact get_reactivity_nonneg R _ _ hvac hnbr
  obtain ⟨flen, fout, fin', ftot⟩ := repair_fold R (cfg.getD v 0) g (cfg.set v g)
    (G.get_neighbors v)
    (reacts.set v (R.get_reactivity g
      ↑((G.get_neighbors v).map (fun j => (cfg.set v g).getD j 0))))
    (total - reacts.getD v 0 + R.get_reactivity g
      ↑((G.get_neighbors v).map (fun j => (cfg.set v g).getD j 0)))
    (hnodup v)
    (by
      intro n hn
      rw [List.length_set, hrlen]
      exact hsub v n hn)
  have happly : applyEvent R G cfg reacts total v g
      = (cfg.set v g,
         ((G.get_neighbors v).foldl
            (repairOne R (cfg.getD v 0) g (cfg.set v g))
            (reacts.set v (R.get_reactivity g
              ↑((G.get_neighbors v).map (fun j => (cfg.set v g).getD j 0))),
             total - reacts.getD v 0 + R.get_reactivity g
              ↑((G.get_neighbors v).map (fun j => (cfg.set v g).getD j 0)))).1,
         ((G.get_neighbors v).foldl
            (repairOne R (cfg.getD v 0) g (cfg.set v g))
            (reacts.set v (R.get_reactivity g
              ↑((G.get_neighbors v).map (fun j => (cfg.set v g).getD j 0))),
             total - reacts.getD v 0 + R.get_reactivity g
              ↑((G.get_neighbors v).map (fun j => (cfg.set v g).getD j 0)))).2) := rfl
  rw [happly]
  refine ⟨rfl, ?_, ?_, ?_⟩
  · rw [flen, List.length_set, hrlen]
  · intro i hi
    by_cases hiv : i = v
    · subst hiv
      rw [fout i hvL, getD_set_self reacts _ _ 0 hvr, hreactv]
    · by_cases hiL : i ∈ G.get_neighbors v
      · rw [fin' i hiL, hr1n i hiL, hcfg'n i hiL, hinv i hi, ← hscr i hiL,
          if_neg (not_lt.mpr (hscr0 i))]
      · rw [fout i hiL, getD_set_ne reacts _ 0 (fun hc => hiv hc.symm), hinv i hi]
        refine (scratchReactivity_congr R G cfg _ i ?_ ?_).symm
        · exact getD_set_ne cfg g 0 (fun hc => hiv hc.symm)
        · intro j hj
          have hjv : j ≠ v := by
            intro hc
            subst hc
            exact hiL ((hsym j i).mp hj)
          exact getD_set_ne cfg g 0 (fun hc => hjv hc.symm)
  · rw [ftot]
    have hmapd : (G.get_neighbors v).map (fun n =>
          R.get_neighbor_reactivity ((cfg.set v g).getD n 0) g
            - R.get_neighbor_reactivity ((cfg.set v g).getD n 0) (cfg.getD v 0))
        = (G.get_neighbors v).map (fun n =>
          R.get_neighbor_reactivity (cfg.getD n 0) g
            - R.get_neighbor_reactivity (cfg.getD n 0) (cfg.getD v 0)) := by
      apply List.map_congr_left
      intro n hn
      rw [hcfg'n n hn]
    have hsubset : insert v (G.get_neighbors v).toFinset ⊆ Finset.range G.nr_points := by
      intro i hi
      rcases Finset.mem_insert.mp hi with hiv | hiL
      · exact Finset.mem_range.mpr (hiv ▸ hv)
      · exact Finset.mem_range.mpr (hsub v i (List.mem_toFinset.mp hiL))
    have hzero : ∀ i ∈ Finset.range G.nr_points,
        i ∉ insert v (G.get_neighbors v).toFinset →
        scratchReactivity R G (cfg.set v g) i - scratchReactivity R G cfg i = 0 := by
      intro i _ hi
      have hiv : i ≠ v := fun hc => hi (Finset.mem_insert.mpr (Or.inl hc))
      have hiL : i ∉ G.get_neighbors v := fun hc =>
        hi (Finset.mem_insert.mpr (Or.inr (List.mem_toFinset.mpr hc)))
      rw [scratchReactivity_congr R G cfg _ i (getD_set_ne cfg g 0 (fun hc => hiv hc.symm))
        (by
          intro j hj
          have hjv : j ≠ v := by
            intro hc
            subst hc
            exact hiL ((hsym j i).mp hj)
          exact getD_set_ne cfg g 0 (fun hc => hjv hc.symm)), sub_self]
    have hsum : ∑ i in Finset.range G.nr_points,
          (scratchReactivity R G (cfg.set v g) i - scratchReactivity R G cfg i)
        = (scratchReactivity R G (cfg.set v g) v - scratchReactivity R G cfg v)
          + ((G.get_neighbors v).map (fun n =>
              R.get_neighbor_reactivity (cfg.getD n 0) g
                - R.get_neighbor_reactivity (cfg.getD n 0) (cfg.getD v 0))).sum := by
      rw [← Finset.sum_subset hsubset (fun i hi hni => hzero i hi hni)]
      rw [Finset.sum_insert (fun hc => hvL (List.mem_toFinset.mp hc))]
      congr 1
      rw [List.sum_toFinset _ (hnodup v)]
      refine congrArg List.sum (List.map_congr_left ?_)
      intro n hn
      rw [hscr n hn]
      ring
    have hsplit : ∑ i in Finset.range G.nr_points,
          (scratchReactivity R G (cfg.set v g) i - scratchReactivity R G cfg i)
        = (∑ i in Finset.range G.nr_points, scratchReactivity R G (cfg.set v g) i)
          - ∑ i in Finset.range G.nr_points, scratchReactivity R G cfg i :=
      Finset.sum_sub_distrib
    rw [hmapd, hinv v hv, hreactv]
    have := hsplit ▸ hsum
    rw [← htot] at this
    linarith [this]

/-- Claim C6: on a graph with symmetric edges and no self-loops (with
in-range, duplicate-free neighbor lists) and nonnegative exact rational
rates, every completed event-loop iteration preserves the two rate
invariants: each maintained `reactivity[i]` equals the from-scratch row
sum `Σ_goal mutation_rate(cfg[i], goal, counts(N(i)))` for the current
configuration, and `total_reactivity` equals `Σ_i reactivity[i]`.  The
hypotheses state the invariant on entry (established from scratch by
Phase I); the conclusion states it for the state any non-panicking loop
body produces, whether it falls through or breaks. -/
theorem claim_C6_reactivity_invariant (env : SolverEnv) (st st' : LoopState)
    (hsym : ∀ i j, i ∈ env.graph.get_neighbors j ↔ j ∈ env.graph.get_neighbors i)
    (hself : ∀ i, i ∉ env.graph.get_neighbors i)
    (hnodup : ∀ i, (env.graph.get_neighbors i).Nodup)
    (hsub : ∀ i, ∀ j ∈ env.graph.get_neighbors i, j < env.graph.nr_points)
    (hvac : ∀ c t, 0 ≤ env.ips_rules.get_vacuum_mutation_rate c t)
    (hnbr : ∀ c t s, 0 ≤ env.ips_rules.get_neighbor_mutation_rate c t s)
    (hslen : st.states.length = env.graph.nr_points)
    (hrlen : st.reactivities.length = env.graph.nr_points)
    (hwlen : st.weights.length = env.graph.nr_points)
    (hN : 0 < env.graph.nr_points)
    (hinv : ∀ i < env.graph.nr_points,
      st.reactivities.getD i 0 = scratchReactivity env.ips_rules env.graph st.states i)
    (htot : st.total_reactivity
      = ∑ i in Finset.range env.graph.nr_points,
          scratchReactivity env.ips_rules env.graph st.states i)
    (h : loopBody env st = StepResult.brk st' ∨ loopBody env st = StepResult.next st') :
    (∀ i < env.graph.nr_points,
      st'.reactivities.getD i 0 = scratchReactivity env.ips_rules env.graph st'.states i)
    ∧ st'.total_reactivity
        = ∑ i in Finset.range env.graph.nr_points, st'.reactivities.getD i 0 := by
  have hv : sampledVertex env st < env.graph.nr_points := by
    have hne : st.weights ≠ [] := by
      intro hc
      rw [hc] at hwlen
      simp at hwlen
      omega
    unfold sampledVertex sampleWeighted
    exact hwlen ▸ pickIndex_lt st.weights _ hne
  obtain ⟨ha1, ha2, ha3, ha4⟩ := applyEvent_invariant env.ips_rules env.graph st.states
    st.reactivities st.total_reactivity (sampledVertex env st)
    (env.ips_rules.all_states.getD
      (sampleWeighted (changeRates env st) (env.rng (st.rng_index + 2))) 0)
    hsym hself hnodup hsub hvac hnbr hslen hrlen hv hinv htot
  have hfinish : ∀ st1 : LoopState,
      (∀ i < env.graph.nr_points,
        st1.reactivities.getD i 0 = scratchReactivity env.ips_rules env.graph st1.states i) →
      st1.total_reactivity
        = ∑ i in Finset.range env.graph.nr_points,
            scratchReactivity env.ips_rules env.graph st1.states i →
      (∀ i < env.graph.nr_points,
        st1.reactivities.getD i 0 = scratchReactivity env.ips_rules env.graph st1.states i)
      ∧ st1.total_reactivity
          = ∑ i in Finset.range env.graph.nr_points, st1.reactivities.getD i 0 := by
    intro st1 hi ht
    refine ⟨hi, ?_⟩
    rw [ht]
    exact (Finset.sum_congr rfl (fun i hii => hi i (Finset.mem_range.mp hii))).symm
  rcases h with h | h
  · simp only [loopBody] at h
    split at h
    · exact absurd h (by simp)
    · split at h
      · exact absurd h (by simp)
      · split at h
        · cases h
          exact hfinish _ hinv htot
        · split at h
          · exact absurd h (by simp)
          · split at h
            · cases h
              exact hfinish _ ha3 (ha4.trans
                (Finset.sum_congr rfl (fun i hii => by rw [ha1])))
            · exact absurd h (by simp)
  · simp only [loopBody] at h
    split at h
    · exact absurd h (by simp)
    · split at h
      · exact absurd h (by simp)
      · split at h
        · exact absurd h (by simp)
        · split at h
          · exact absurd h (by simp)
          · split at h
            · exact absurd h (by simp)
            · cases h
              obtain ⟨m, -, hrec⟩ := recordBatch_spec env st.states
                (env.record_condition.how_often_record
                  (st.time_passed + env.rng st.rng_index / st.total_reactivity)
                  (env.rng st.rng_index / st.total_reactivity) (st.steps_taken + 1) false) _
              rw [hrec]
              exact hfinish _ ha3 (ha4.trans
                (Finset.sum_congr rfl (fun i hii => by rw [ha1])))

/-- The two-vertex edge graph has symmetric adjacency. -/
lemma pairGraph_sym : ∀ i j, i ∈ pairGraph.get_neighbors j ↔ j ∈ pairGraph.get_neighbors i := by
  intro i j
  rcases i with _ | _ | i <;> rcases j with _ | _ | j <;> simp [pairGraph, Graph.get_neighbors]

/-- The two-vertex edge graph has no self-loops. -/
lemma pairGraph_self : ∀ i, i ∉ pairGraph.get_neighbors i := by
  intro i
  rcases i with _ | _ | i <;> simp [pairGraph, Graph.get_neighbors]

/-- The two-vertex edge graph returns duplicate-free neighbor lists. -/
lemma pairGraph_nodup : ∀ i, (pairGraph.get_neighbors i).Nodup := by
  intro i
  rcases i with _ | _ | i <;> simp [pairGraph, Graph.get_neighbors]

/-- The two-vertex edge graph returns in-range neighbors. -/
lemma pairGraph_sub : ∀ i, ∀ j ∈ pairGraph.get_neighbors i, j < pairGraph.nr_points := by
  intro i j
  rcases i with _ | _ | i <;> simp [pairGraph, Graph.get_neighbors] <;> omega

/-- The voter process has only zero vacuum rates. -/
lemma voter_vacuum_nonneg (K : ℕ) (r : ℚ) :
    ∀ c t, 0 ≤ (VoterProcess K r).get_vacuum_mutation_rate c t := by
  intro c t
  simp [VoterProcess]

/-- With a nonnegative change rate the voter process has nonnegative
neighbor rates. -/
lemma voter_neighbor_nonneg (K : ℕ) (r : ℚ) (hr : 0 ≤ r) :
    ∀ c t s, 0 ≤ (VoterProcess K r).get_neighbor_mutation_rate c t s := by
  intro c t s
  simp only [VoterProcess]
  split
  · exact le_refl 0
  · split
    · exact le_refl 0
    · exact hr

/-- Claim C6, witness: the concrete first iteration of the voter run on
the two-vertex graph preserves both invariants. -/
theorem claim_C6_witness :
    (∀ i < 2,
      (LoopState.mk [0, 0] [0, 0] 0 [0, 1] (1/4) 1 1 [1, 1] 3).reactivities.getD i 0
        = scratchReactivity (VoterProcess 2 1) pairGraph
            (LoopState.mk [0, 0] [0, 0] 0 [0, 1] (1/4) 1 1 [1, 1] 3).states i)
    ∧ (LoopState.mk [0, 0] [0, 0] 0 [0, 1] (1/4) 1 1 [1, 1] 3).total_reactivity
        = ∑ i in Finset.range 2,
            (LoopState.mk [0, 0] [0, 0] 0 [0, 1] (1/4) 1 1 [1, 1] 3).reactivities.getD i 0 :=
  claim_C6_reactivity_invariant envFinal
    (LoopState.mk [0, 1] [1, 1] 2 [0, 1] 0 1 0 [1, 1] 0)
    (LoopState.mk [0, 0] [0, 0] 0 [0, 1] (1/4) 1 1 [1, 1] 3)
    pairGraph_sym pairGraph_self pairGraph_nodup pairGraph_sub
    (voter_vacuum_nonneg 2 1) (voter_neighbor_nonneg 2 1 (by norm_num))
    rfl rfl rfl (by decide)
    (by with_unfolding_all decide) (by with_unfolding_all decide)
    (Or.inl (by with_unfolding_all decide))

/-- The n-dimensional lattice graph of `solver/graph/grid_n_d.rs`:
per-axis sizes, per-axis strides, per-axis cyclic flags, and the vertex
count. -/
structure GridND where
  dimensions : List ℕ
  step_sizes : List ℕ
  glue : List Bool
  nr_points : ℕ
deriving DecidableEq, Repr

/-- The `From<(Vec<usize>, Vec<bool>)>` constructor (`grid_n_d.rs` lines
45-69): assert matching lengths and no axis of size 0 or 1, accumulate
the strides as running products, and multiply the last stride by the last
size for the vertex count; the `unwrap` on an empty dimension vector is a
panic, modelled as `none`. -/
def GridND.fromDims (dimensions : List ℕ) (glue : List Bool) : Option GridND :=
  if dimensions.length ≠ glue.length then none
  else if 0 ∈ dimensions then none
  else if 1 ∈ dimensions then none
  else
    let step_sizes := (dimensions.foldl (fun pr i => (pr.1 ++ [pr.2], pr.2 * i)) ([], 1)).1
    match step_sizes.getLast?, dimensions.getLast? with
    | some s, some d => some (GridND.mk dimensions step_sizes glue (s * d))
    | _, _ => none

/-- The `From<Vec<usize>>` constructor (`grid_n_d.rs` lines 81-85): all
axes cyclic. -/
def GridND.fromVec (dimensions : List ℕ) : Option GridND :=
  GridND.fromDims dimensions (List.replicate dimensions.length true)

/-- Model of `GridND::get_neighbors` (`grid_n_d.rs` lines 94-128): per axis,
insert the inward neighbor(s) and, on a cyclic boundary, the wrapped
neighbor, into a hash set (here a `Finset`). -/
def GridND.get_neighbors (g : GridND) (particle : ℕ) : Finset ℕ :=
  (List.range g.step_sizes.length).foldl (fun neighbors dimension_index =>
    let step_size := g.step_sizes.getD dimension_index 1
    let current_dimension := g.dimensions.getD dimension_index 1
    let current_coordinate := particle / step_size % current_dimension
    if current_coordinate = 0 then
      let nb := insert (particle + step_size) neighbors
      if g.glue.getD dimension_index false
      then insert (particle + step_size * current_dimension - step_size) nb
      else nb
    else if current_coordinate = current_dimension - 1 then
      let nb := insert (particle - step_size) neighbors
      if g.glue.getD dimension_index false
      then insert (particle + step_size - step_size * current_dimension) nb
      else nb
    else
      insert (particle - step_size) (insert (particle + step_size) neighbors)) ∅

/-- The cyclic successor of `v` along an axis of stride `step` and size
`dim`: one step up, wrapping from the far boundary back across the
axis. -/
def wrapSucc (v step dim : ℕ) : ℕ :=
  if v / step % dim = dim - 1 then v + step - step * dim else v + step

/-- The cyclic predecessor of `v` along an axis of stride `step` and size
`dim`. -/
def wrapPred (v step dim : ℕ) : ℕ :=
  if v / step % dim = 0 then v + step * dim - step else v - step

/-- One cyclic axis pass of `get_neighbors` inserts exactly the cyclic
successor and predecessor along that axis. -/
lemma axis_step (v step dim : ℕ) (hdim : 2 ≤ dim) (acc : Finset ℕ) :
    (if v / step % dim = 0 then
       insert (v + step * dim - step) (insert (v + step) acc)
     else if v / step % dim = dim - 1 then
       insert (v + step - step * dim) (insert (v - step) acc)
     else insert (v - step) (insert (v + step) acc))
      = insert (wrapPred v step dim) (insert (wrapSucc v step dim) acc) := by
  unfold wrapSucc wrapPred
  by_cases h0 : v / step % dim = 0
  · rw [if_pos h0, if_pos h0, if_neg (by omega : ¬ v / step % dim = dim - 1)]
  · by_cases h1 : v / step % dim = dim - 1
    · rw [if_neg h0, if_pos h1, if_pos h1, if_neg h0]
      exact Finset.Insert.comm _ _ _
    · rw [if_neg h0, if_neg h1, if_neg h1, if_neg h0]

/-- The fully cyclic 2-dimensional constructor produces the expected
structure. -/
lemma fromVec_torus (W H : ℕ) (hW : 2 ≤ W) (hH : 2 ≤ H) :
    GridND.fromVec [W, H] = some (GridND.mk [W, H] [1, W] [true, true] (W * H)) := by
  unfold GridND.fromVec GridND.fromDims
  have h0 : ¬ (0 ∈ [W, H]) := by simp; omega
  have h1 : ¬ (1 ∈ [W, H]) := by simp; omega
  simp [h0, h1, List.foldl]

/-- Closed form of the toroidal neighbor set: the four cyclic
successor/predecessor vertices along the two axes. -/
lemma torus_get_neighbors (W H v : ℕ) (hW : 2 ≤ W) (hH : 2 ≤ H) :
    (GridND.mk [W, H] [1, W] [true, true] (W * H)).get_neighbors v
      = insert (wrapPred v W H) (insert (wrapSucc v W H)
          (insert (wrapPred v 1 W) (insert (wrapSucc v 1 W) (∅ : Finset ℕ)))) := by
  unfold GridND.get_neighbors
  simp only [List.length_cons, List.length_nil, List.range_succ, List.range_zero,
    List.nil_append, List.cons_append, List.foldl_cons, List.foldl_nil,
    List.getD_cons_zero, List.getD_cons_succ, if_true, ite_true]
  rw [axis_step v 1 W hW ∅, axis_step v W H hH _]

/-- Division-remainder decomposition in the orientation used below. -/
lemma div_mul_add_mod (v W : ℕ) : v / W * W + v % W = v := by
  rw [Nat.mul_comm (v / W) W]
  exact Nat.div_add_mod v W

/-- Row-column reading of the horizontal cyclic successor. -/
lemma wrapSucc_one (W v : ℕ) (hW : 2 ≤ W) :
    wrapSucc v 1 W = v / W * W + (v % W + 1) % W := by
  unfold wrapSucc
  have hvrc := div_mul_add_mod v W
  have hc : v % W < W := Nat.mod_lt v (by omega)
  rw [Nat.div_one]
  by_cases h : v % W = W - 1
  · rw [if_pos h]
    have h1 : v % W + 1 = W := by omega
    have h2 : (v % W + 1) % W = 0 := by rw [h1]; exact Nat.mod_self W
    rw [h2]
    omega
  · rw [if_neg h, Nat.mod_eq_of_lt (by omega : v % W + 1 < W)]
    omega

/-- Row-column reading of the horizontal cyclic predecessor. -/
lemma wrapPred_one (W v : ℕ) (hW : 2 ≤ W) :
    wrapPred v 1 W = v / W * W + (v % W + W - 1) % W := by
  unfold wrapPred
  have hvrc := div_mul_add_mod v W
  have hc : v % W < W := Nat.mod_lt v (by omega)
  rw [Nat.div_one]
  by_cases h : v % W = 0
  · rw [if_pos h, h, Nat.mod_eq_of_lt (show 0 + W - 1 < W by omega)]
    omega
  · rw [if_neg h]
    have h2 : v % W + W - 1 = (v % W - 1) + W := by omega
    rw [h2, Nat.add_mod_right, Nat.mod_eq_of_lt (by omega : v % W - 1 < W)]
    omega

/-- Row-column reading of the vertical cyclic successor, for in-range
vertices. -/
lemma wrapSucc_row (W H v : ℕ) (hW : 2 ≤ W) (hH : 2 ≤ H) (hv : v < W * H) :
    wrapSucc v W H = (v / W + 1) % H * W + v % W := by
  unfold wrapSucc
  have hvrc := div_mul_add_mod v W
  have hr : v / W < H := Nat.div_lt_of_lt_mul hv
  rw [Nat.mod_eq_of_lt hr]
  by_cases h : v / W = H - 1
  · rw [if_pos h]
    have h1 : v / W + 1 = H := by omega
    rw [h1, Nat.mod_self, Nat.zero_mul]
    have h2 : v / W * W = (H - 1) * W := by rw [h]
    have h3 : (H - 1) * W + W = W * H := by
      cases H with
      | zero => omega
      | succ H' => simp [Nat.succ_sub_one, Nat.mul_succ, Nat.mul_comm]
    omega
  · rw [if_neg h, Nat.mod_eq_of_lt (by omega : v / W + 1 < H), Nat.add_mul, Nat.one_mul]
    omega

/-- Row-column reading of the vertical cyclic predecessor, for in-range
vertices. -/
lemma wrapPred_row (W H v : ℕ) (hW : 2 ≤ W) (hH : 2 ≤ H) (hv : v < W * H) :
    wrapPred v W H = (v / W + H - 1) % H * W + v % W := by
  unfold wrapPred
  have hvrc := div_mul_add_mod v W
  have hr : v / W < H := Nat.div_lt_of_lt_mul hv
  rw [Nat.mod_eq_of_lt hr]
  by_cases h : v / W = 0
  · rw [if_pos h, Nat.mod_eq_of_lt (show v / W + H - 1 < H by omega), h]
    have h3 : (0 + H - 1) * W + W = W * H := by
      cases H with
      | zero => omega
      | succ H' => simp [Nat.succ_sub_one, Nat.mul_succ, Nat.mul_comm]
    have h4 : v % W = v := by
      rw [h, Nat.zero_mul] at hvrc
      omega
    omega
  · rw [if_neg h]
    have hge : 1 ≤ v / W := Nat.pos_of_ne_zero h
    have h2 : v / W + H - 1 = (v / W - 1) + H := by omega
    rw [h2, Nat.add_mod_right, Nat.mod_eq_of_lt (by omega : v / W - 1 < H)]
    have h3 : (v / W - 1) * W + W = v / W * W := by
      cases hq : v / W with
      | zero => omega
      | succ q => simp [Nat.succ_sub_one, Nat.succ_mul]
    omega

/-- Row-column encodings with in-range columns are injective. -/
lemma enc_inj {W r1 c1 r2 c2 : ℕ} (hc1 : c1 < W) (hc2 : c2 < W)
    (h : r1 * W + c1 = r2 * W + c2) : r1 = r2 ∧ c1 = c2 := by
  have hW : 0 < W := by omega
  have hm : (r1 * W + c1) % W = (r2 * W + c2) % W := by rw [h]
  have hd : (r1 * W + c1) / W = (r2 * W + c2) / W := by rw [h]
  rw [Nat.add_comm (r1 * W) c1, Nat.add_comm (r2 * W) c2] at hm hd
  rw [Nat.add_mul_mod_self_right, Nat.add_mul_mod_self_right,
    Nat.mod_eq_of_lt hc1, Nat.mod_eq_of_lt hc2] at hm
  rw [Nat.add_mul_div_right _ _ hW, Nat.add_mul_div_right _ _ hW,
    Nat.div_eq_of_lt hc1, Nat.div_eq_of_lt hc2] at hd
  omega

/-- The cyclic successor column differs from the column. -/
lemma succ_mod_ne (c W : ℕ) (hc : c < W) (hW : 2 ≤ W) : (c + 1) % W ≠ c := by
  by_cases h : c + 1 = W
  · rw [h, Nat.mod_self]
    omega
  · rw [Nat.mod_eq_of_lt (by omega)]
    omega

/-- The cyclic predecessor column differs from the column. -/
lemma pred_mod_ne (c W : ℕ) (hc : c < W) (hW : 2 ≤ W) : (c + W - 1) % W ≠ c := by
  by_cases h : c = 0
  · subst h
    rw [Nat.mod_eq_of_lt (by omega)]
    omega
  · have h2 : c + W - 1 = (c - 1) + W := by omega
    rw [h2, Nat.add_mod_right, Nat.mod_eq_of_lt (by omega)]
    omega

/-- On an axis of size at least three, the cyclic successor and
predecessor columns differ. -/
lemma succ_ne_pred_mod (c W : ℕ) (hc : c < W) (hW3 : 3 ≤ W) :
    (c + 1) % W ≠ (c + W - 1) % W := by
  by_cases h1 : c + 1 = W
  · rw [h1, Nat.mod_self]
    have h2 : c + W - 1 = (c - 1) + W := by omega
    rw [h2, Nat.add_mod_right, Nat.mod_eq_of_lt (by omega)]
    omega
  · rw [Nat.mod_eq_of_lt (by omega : c + 1 < W)]
    by_cases h2 : c = 0
    · subst h2
      rw [Nat.mod_eq_of_lt (by omega)]
      omega
    · have h3 : c + W - 1 = (c - 1) + W := by omega
      rw [h3, Nat.add_mod_right, Nat.mod_eq_of_lt (by omega)]
      omega

/-- Claim C7, counterexample: the constructor accepts dimensions (2, 2),
and on that torus vertex 0 has only two distinct neighbors (the two
directions along each axis wrap to the same vertex and the hash set
deduplicates them), not four. -/
theorem claim_C7_counterexample :
    GridND.fromVec [2, 2] = some (GridND.mk [2, 2] [1, 2] [true, true] 4)
      ∧ ((GridND.mk [2, 2] [1, 2] [true, true] 4).get_neighbors 0).card ≠ 4 := by
  constructor
  · decide
  · decide

/-- Claim C7, amended: for every fully cyclic 2-dimensional grid accepted
by the constructor (no dimension 0 or 1) and every vertex, the vertex is
not its own neighbor; and when both dimensions are at least 3 the vertex
has exactly four distinct neighbors.  For a dimension equal to 2 the two
neighbors along that axis coincide and the set is smaller, as the
counterexample shows. -/
theorem claim_C7_torus_neighbors (W H v : ℕ) (g : GridND)
    (hW : 2 ≤ W) (hH : 2 ≤ H)
    (hg : GridND.fromVec [W, H] = some g) (hv : v < W * H) :
    v ∉ g.get_neighbors v ∧ (3 ≤ W → 3 ≤ H → (g.get_neighbors v).card = 4) := by
  rw [fromVec_torus W H hW hH] at hg
  cases hg
  rw [torus_get_neighbors W H v hW hH, wrapSucc_one W v hW, wrapPred_one W v hW,
    wrapSucc_row W H v hW hH hv, wrapPred_row W H v hW hH hv]
  have hW0 : 0 < W := by omega
  have hc : v % W < W := Nat.mod_lt v hW0
  have hr : v / W < H := Nat.div_lt_of_lt_mul hv
  have bA : (v % W + 1) % W < W := Nat.mod_lt _ hW0
  have bB : (v % W + W - 1) % W < W := Nat.mod_lt _ hW0
  have hv_eq : v = v / W * W + v % W := (div_mul_add_mod v W).symm
  constructor
  · simp only [Finset.mem_insert, Finset.not_mem_empty, or_false]
    push_neg
    refine ⟨?_, ?_, ?_, ?_⟩
    · intro hEq
      nth_rewrite 1 [hv_eq] at hEq
      exact (pred_mod_ne (v / W) H hr hH) (enc_inj hc hc hEq).1.symm
    · intro hEq
      nth_rewrite 1 [hv_eq] at hEq
      exact (succ_mod_ne (v / W) H hr hH) (enc_inj hc hc hEq).1.symm
    · intro hEq
      nth_rewrite 1 [hv_eq] at hEq
      exact (pred_mod_ne (v % W) W hc hW) (enc_inj hc bB hEq).2.symm
    · intro hEq
      nth_rewrite 1 [hv_eq] at hEq
      exact (succ_mod_ne (v % W) W hc hW) (enc_inj hc bA hEq).2.symm
  · intro hW3 hH3
    have hDC : (v / W + H - 1) % H * W + v % W ≠ (v / W + 1) % H * W + v % W := by
      intro hEq
      exact (succ_ne_pred_mod (v / W) H hr hH3) (enc_inj hc hc hEq).1.symm
    have hDB : (v / W + H - 1) % H * W + v % W ≠ v / W * W + (v % W + W - 1) % W := by
      intro hEq
      exact (pred_mod_ne (v % W) W hc hW) (enc_inj hc bB hEq).2.symm
    have hDA : (v / W + H - 1) % H * W + v % W ≠ v / W * W + (v % W + 1) % W := by
      intro hEq
      exact (succ_mod_ne (v % W) W hc hW) (enc_inj hc bA hEq).2.symm
    have hCB : (v / W + 1) % H * W + v % W ≠ v / W * W + (v % W + W - 1) % W := by
      intro hEq
      exact (pred_mod_ne (v % W) W hc hW) (enc_inj hc bB hEq).2.symm
    have hCA : (v / W + 1) % H * W + v % W ≠ v / W * W + (v % W + 1) % W := by
      intro hEq
      exact (succ_mod_ne (v % W) W hc hW) (enc_inj hc bA hEq).2.symm
    have hBA : v / W * W + (v % W + W - 1) % W ≠ v / W * W + (v % W + 1) % W := by
      intro hEq
      exact (succ_ne_pred_mod (v % W) W hc hW3) (enc_inj bB bA hEq).2.symm
    rw [Finset.card_insert_of_not_mem (by
        simp only [Finset.mem_insert, Finset.not_mem_empty, or_false]
        push_neg
        exact ⟨hDC, hDB, hDA⟩),
      Finset.card_insert_of_not_mem (by
        simp only [Finset.mem_insert, Finset.not_mem_empty, or_false]
        push_neg
        exact ⟨hCB, hCA⟩),
      Finset.card_insert_of_not_mem (by
        simp only [Finset.mem_insert, Finset.not_mem_empty, or_false]
        exact hBA),
      Finset.card_insert_of_not_mem (Finset.not_mem_empty _), Finset.card_empty]

/-- Claim C7, witness for the amended theorem at a concrete input. -/
theorem claim_C7_witness :
    0 ∉ (GridND.mk [3, 3] [1, 3] [true, true] 9).get_neighbors 0
      ∧ (3 ≤ 3 → 3 ≤ 3
          → ((GridND.mk [3, 3] [1, 3] [true, true] 9).get_neighbors 0).card = 4) :=
  claim_C7_torus_neighbors 3 3 0 (GridND.mk [3, 3] [1, 3] [true, true] 9)
    (by norm_num) (by norm_num) (by decide) (by norm_num)

/-- The diluted 2-D lattice of `solver/graph/diluted_lattice.rs`: a
toroidal lattice whose `2·W·H` axis-parallel edges are masked by
`is_edge` (first all horizontal edges, then all vertical ones).  The
`probability` field only feeds the description text and the sampler, so
it is not part of the model. -/
structure DilutedLattice where
  nr_points : ℕ
  dim_x : ℕ
  step_x : ℕ
  dim_y : ℕ
  step_y : ℕ
  is_edge : List Bool
deriving DecidableEq, Repr

/-- Model of `DilutedLattice::get_neighbors` (`diluted_lattice.rs` lines 22-76):
for each of the four axis directions, consult the edge mask at the edge's
index and, when present, insert the (wrapping) neighbor. -/
def DilutedLattice.get_neighbors (g : DilutedLattice) (particle : ℕ) : Finset ℕ :=
  let x_coord := particle % g.dim_x
  let y_coord := particle / g.dim_x
  let n0 : Finset ℕ := ∅
  let n1 :=
    if x_coord = g.dim_x - 1 then
      if g.is_edge.getD particle false
      then insert (particle + g.step_x - g.dim_x) n0 else n0
    else
      if g.is_edge.getD particle false
      then insert (particle + g.step_x) n0 else n0
  let n2 :=
    if x_coord = 0 then
      if g.is_edge.getD (particle + g.dim_x - g.step_x) false
      then insert (particle + g.dim_x - g.step_x) n1 else n1
    else
      if g.is_edge.getD (particle - g.step_x) false
      then insert (particle - g.step_x) n1 else n1
  let n3 :=
    if y_coord = g.dim_y - 1 then
      if g.is_edge.getD (g.nr_points + particle) false
      then insert (particle + g.step_y - g.nr_points) n2 else n2
    else
      if g.is_edge.getD (g.nr_points + particle) false
      then insert (particle + g.step_y) n2 else n2
  if y_coord = 0 then
    if g.is_edge.getD (2 * g.nr_points + particle - g.step_y) false
    then insert (particle + g.nr_points - g.step_y) n3 else n3
  else
    if g.is_edge.getD (g.nr_points + particle - g.step_y) false
    then insert (particle - g.step_y) n3 else n3

/-- Model of `DilutedLattice::new` (`diluted_lattice.rs` lines 86-108), with the
Bernoulli sampler abstracted into the boolean stream it produces: the
mask takes one sample per edge, `2·dim_x·dim_y` in total. -/
def DilutedLattice.new (dim_x dim_y : ℕ) (samples : ℕ → Bool) : DilutedLattice where
  nr_points := dim_x * dim_y
  dim_x := dim_x
  step_x := 1
  dim_y := dim_y
  step_y := dim_x
  is_edge := (List.range (2 * dim_x * dim_y)).map samples

/-- The diluted lattice built with edge probability 1.0: `Bernoulli::new(1.0)`
always samples `true`, so the mask is identically true. -/
def DilutedLattice.full (dim_x dim_y : ℕ) : DilutedLattice :=
  DilutedLattice.new dim_x dim_y (fun _ => true)

/-- Entries of the all-true mask. -/
lemma getD_range_map_true (n i : ℕ) (h : i < n) :
    ((List.range n).map (fun _ => true)).getD i false = true := by
  rw [List.getD_eq_getElem?_getD, List.getElem?_map, List.getElem?_range h]
  rfl

/-- Closed form of the full diluted lattice's neighbor set: identical to
the toroidal one. -/
lemma diluted_full_neighbors (W H v : ℕ) (hW : 2 ≤ W) (hH : 2 ≤ H) (hv : v < W * H) :
    (DilutedLattice.full W H).get_neighbors v
      = insert (wrapPred v W H) (insert (wrapSucc v W H)
          (insert (wrapPred v 1 W) (insert (wrapSucc v 1 W) (∅ : Finset ℕ)))) := by
  have hW0 : 0 < W := by omega
  have hassoc : 2 * W * H = 2 * (W * H) := by ring
  have hWle : W ≤ W * H := Nat.le_mul_of_pos_right W (by omega)
  have hsx : wrapSucc v 1 W = if v % W = W - 1 then v + 1 - W else v + 1 := by
    unfold wrapSucc
    rw [Nat.div_one, Nat.one_mul]
  have hpx : wrapPred v 1 W = if v % W = 0 then v + W - 1 else v - 1 := by
    unfold wrapPred
    rw [Nat.div_one, Nat.one_mul]
  have hy : v / W % H = v / W := Nat.mod_eq_of_lt (Nat.div_lt_of_lt_mul hv)
  have hsy : wrapSucc v W H = if v / W = H - 1 then v + W - W * H else v + W := by
    unfold wrapSucc
    rw [hy]
  have hpy : wrapPred v W H = if v / W = 0 then v + W * H - W else v - W := by
    unfold wrapPred
    rw [hy]
  have t1 : ((List.range (2 * W * H)).map (fun _ => true)).getD v false = true :=
    getD_range_map_true _ _ (by omega)
  have t2 : ((List.range (2 * W * H)).map (fun _ => true)).getD (v + W - 1) false = true :=
    getD_range_map_true _ _ (by omega)
  have t3 : ((List.range (2 * W * H)).map (fun _ => true)).getD (v - 1) false = true :=
    getD_range_map_true _ _ (by omega)
  have t4 : ((List.range (2 * W * H)).map (fun _ => true)).getD (W * H + v) false = true :=
    getD_range_map_true _ _ (by omega)
  have t5 : ((List.range (2 * W * H)).map (fun _ => true)).getD (W * H + v - W) false
      = true := getD_range_map_true _ _ (by omega)
  rw [hsx, hpx, hsy, hpy]
  show (let x_coord := v % W
        let y_coord := v / W
        let n0 : Finset ℕ := ∅
        let n1 :=
          if x_coord = W - 1 then
            if ((List.range (2 * W * H)).map (fun _ => true)).getD v false
            then insert (v + 1 - W) n0 else n0
          else
            if ((List.range (2 * W * H)).map (fun _ => true)).getD v false
            then insert (v + 1) n0 else n0
        let n2 :=
          if x_coord = 0 then
            if ((List.range (2 * W * H)).map (fun _ => true)).getD (v + W - 1) false
            then insert (v + W - 1) n1 else n1
          else
            if ((List.range (2 * W * H)).map (fun _ => true)).getD (v - 1) false
            then insert (v - 1) n1 else n1
        let n3 :=
          if y_coord = H - 1 then
            if ((List.range (2 * W * H)).map (fun _ => true)).getD (W * H + v) false
            then insert (v + W - (W * H)) n2 else n2
          else
            if ((List.range (2 * W * H)).map (fun _ => true)).getD (W * H + v) false
            then insert (v + W) n2 else n2
        if y_coord = 0 then
          if ((List.range (2 * W * H)).map (fun _ => true)).getD
              (2 * (W * H) + v - W) false
          then insert (v + W * H - W) n3 else n3
        else
          if ((List.range (2 * W * H)).map (fun _ => true)).getD
              (W * H + v - W) false
          then insert (v - W) n3 else n3)
      = _
  simp only [t1, t2, t3, t4, t5, if_true]
  by_cases hy0 : v / W = 0
  · have hvW : v < W := by
      have := div_mul_add_mod v W
      rw [hy0, Nat.zero_mul] at this
      have := Nat.mod_lt v hW0
      omega
    have t6 : ((List.range (2 * W * H)).map (fun _ => true)).getD
        (2 * (W * H) + v - W) false = true :=
      getD_range_map_true _ _ (by omega)
    have hyH : ¬ v / W = H - 1 := by omega
    simp only [t6, if_true, if_pos hy0, if_neg hyH]
    by_cases hxW : v % W = W - 1
    · have hx0 : ¬ v % W = 0 := by omega
      simp only [if_pos hxW, if_neg hx0]
    · by_cases hx0 : v % W = 0
      · simp only [if_neg hxW, if_pos hx0]
      · simp only [if_neg hxW, if_neg hx0]
  · have hyH' : v / W ≤ H - 1 := by
      have := Nat.div_lt_of_lt_mul hv
      omega
    simp only [if_neg hy0]
    by_cases hyH : v / W = H - 1
    · simp only [if_pos hyH]
      by_cases hxW : v % W = W - 1
      · have hx0 : ¬ v % W = 0 := by omega
        simp only [if_pos hxW, if_neg hx0]
      · by_cases hx0 : v % W = 0
        · simp only [if_neg hxW, if_pos hx0]
        · simp only [if_neg hxW, if_neg hx0]
    · simp only [if_neg hyH]
      by_cases hxW : v % W = W - 1
      · have hx0 : ¬ v % W = 0 := by omega
        simp only [if_pos hxW, if_neg hx0]
      · by_cases hx0 : v % W = 0
        · simp only [if_neg hxW, if_pos hx0]
        · simp only [if_neg hxW, if_neg hx0]

/-- Claim C9: for dimensions accepted by both constructors, the diluted
lattice with edge probability 1.0 (an all-true edge mask, since
`Bernoulli::new(1.0)` always samples true) has exactly the neighbor sets
of the fully cyclic torus of the same size, at every vertex. -/
theorem claim_C9_diluted_equals_torus (W H v : ℕ) (g : GridND)
    (hW : 2 ≤ W) (hH : 2 ≤ H)
    (hg : GridND.fromVec [W, H] = some g) (hv : v < W * H) :
    (DilutedLattice.full W H).get_neighbors v = g.get_neighbors v := by
  rw [fromVec_torus W H hW hH] at hg
  cases hg
  rw [torus_get_neighbors W H v hW hH, diluted_full_neighbors W H v hW hH hv]

/-- Claim C9, witness at a concrete input. -/
theorem claim_C9_witness :
    (DilutedLattice.full 3 3).get_neighbors 1
      = (GridND.mk [3, 3] [1, 3] [true, true] 9).get_neighbors 1 :=
  claim_C9_diluted_equals_torus 3 3 1 (GridND.mk [3, 3] [1, 3] [true, true] 9)
    (by norm_num) (by norm_num) (by decide) (by norm_num)

/-- Total reactivity of a configuration: the sum of the from-scratch
per-vertex reactivities over all vertices, as computed by Phase I. -/
def totalScratchReactivity (R : IPSRules) (G : Graph) (cfg : List ℕ) : ℚ :=
  ∑ i in Finset.range G.nr_points, scratchReactivity R G cfg i

/-- Walks along the neighbor relation stay inside the vertex range. -/
lemma chain_in_range (G : Graph)
    (hsub : ∀ i < G.nr_points, ∀ j ∈ G.get_neighbors i, j < G.nr_points)
    (a c : ℕ) (h : Relation.ReflTransGen (fun x y => y ∈ G.get_neighbors x) a c)
    (ha : a < G.nr_points) : c < G.nr_points := by
  induction h with
  | refl => exact ha
  | tail hab hbc ih => exact hsub _ ih _ hbc

/-- Along a walk whose endpoints hold different states, some vertex has a
neighbor in a different state. -/
lemma exists_diff_edge (G : Graph) (cfg : List ℕ)
    (hsub : ∀ i < G.nr_points, ∀ j ∈ G.get_neighbors i, j < G.nr_points)
    (a b : ℕ) (hab : Relation.ReflTransGen (fun x y => y ∈ G.get_neighbors x) a b)
    (ha : a < G.nr_points) (hne : cfg.getD a 0 ≠ cfg.getD b 0) :
    ∃ x, x < G.nr_points ∧ ∃ y ∈ G.get_neighbors x, cfg.getD x 0 ≠ cfg.getD y 0 := by
  induction hab with
  | refl => exact absurd rfl hne
  | @tail p q hap hpq ih =>
    by_cases hpq' : cfg.getD p 0 = cfg.getD q 0
    · exact ih (fun h => hne (h.trans hpq'))
    · exact ⟨p, chain_in_range G hsub a p hap ha, q, hpq, hpq'⟩

/-- Claim C8: for the voter process with at least two parties and a
positive change rate on a finite connected graph with at least one edge
(in-range neighbor lists, valid states), every non-unanimous
configuration has strictly positive total reactivity and every unanimous
configuration has total reactivity zero. -/
theorem claim_C8_voter_reactivity (K : ℕ) (r : ℚ) (G : Graph) (cfg : List ℕ)
    (hK : 2 ≤ K) (hr : 0 < r)
    (hvalid : ∀ i < G.nr_points, cfg.getD i 0 < K)
    (hsub : ∀ i < G.nr_points, ∀ j ∈ G.get_neighbors i, j < G.nr_points)
    (hconn : ∀ i j, i < G.nr_points → j < G.nr_points →
      Relation.ReflTransGen (fun x y => y ∈ G.get_neighbors x) i j)
    (hedge : ∃ i, i < G.nr_points ∧ G.get_neighbors i ≠ []) :
    (¬ (∀ i < G.nr_points, ∀ j < G.nr_points, cfg.getD i 0 = cfg.getD j 0) →
        0 < totalScratchReactivity (VoterProcess K r) G cfg)
    ∧ ((∀ i < G.nr_points, ∀ j < G.nr_points, cfg.getD i 0 = cfg.getD j 0) →
        totalScratchReactivity (VoterProcess K r) G cfg = 0) := by
  have hscr_nonneg : ∀ i, 0 ≤ scratchReactivity (VoterProcess K r) G cfg i := by
    intro i
    rw [scratchReactivity_eq]
    exact get_reactivity_nonneg _ _ _ (voter_vacuum_nonneg K r)
      (voter_neighbor_nonneg K r (le_of_lt hr))
  constructor
  · intro hnu
    push_neg at hnu
    obtain ⟨a, ha, b, hb, hab⟩ := hnu
    obtain ⟨x, hx, y, hy, hxy⟩ :=
      exists_diff_edge G cfg hsub a b (hconn a b ha hb) ha hab
    have hyN : y < G.nr_points := hsub x hx y hy
    have hyK : cfg.getD y 0 < K := hvalid y hyN
    apply Finset.sum_pos' (fun i _ => hscr_nonneg i)
    refine ⟨x, Finset.mem_range.mpr hx, ?_⟩
    rw [scratchReactivity_eq, get_reactivity_split]
    have hvac0 : ((VoterProcess K r).all_states.map
        ((VoterProcess K r).get_vacuum_mutation_rate (cfg.getD x 0))).sum = 0 := by
      apply List.sum_eq_zero
      intro z hz
      obtain ⟨-, -, rfl⟩ := List.mem_map.mp hz
      rfl
    rw [hvac0, zero_add]
    have hnbr_pos : 0 < (VoterProcess K r).get_neighbor_reactivity
        (cfg.getD x 0) (cfg.getD y 0) := by
      unfold IPSRules.get_neighbor_reactivity
      have hmem : (VoterProcess K r).get_neighbor_mutation_rate
            (cfg.getD x 0) (cfg.getD y 0) (cfg.getD y 0)
          ∈ (VoterProcess K r).all_states.map
              (fun other => (VoterProcess K r).get_neighbor_mutation_rate
                (cfg.getD x 0) other (cfg.getD y 0)) :=
        List.mem_map.mpr ⟨cfg.getD y 0, List.mem_range.mpr hyK, rfl⟩
      have hval : (VoterProcess K r).get_neighbor_mutation_rate
          (cfg.getD x 0) (cfg.getD y 0) (cfg.getD y 0) = r := by
        simp only [VoterProcess]
        rw [if_neg (not_not_intro rfl), if_neg hxy]
      have hle := List.single_le_sum (fun z hz => ?_) _ hmem
      · rw [hval] at hle
        exact lt_of_lt_of_le hr hle
      · obtain ⟨w, -, rfl⟩ := List.mem_map.mp hz
        exact voter_neighbor_nonneg K r (le_of_lt hr) _ _ _
    have hterm : (VoterProcess K r).get_neighbor_reactivity
          (cfg.getD x 0) (cfg.getD y 0)
        ∈ (((G.get_neighbors x).map (fun j => cfg.getD j 0) : List ℕ) : Multiset ℕ).map
            ((VoterProcess K r).get_neighbor_reactivity (cfg.getD x 0)) := by
      apply Multiset.mem_map.mpr
      refine ⟨cfg.getD y 0, ?_, rfl⟩
      rw [Multiset.mem_coe]
      exact List.mem_map.mpr ⟨y, hy, rfl⟩
    have hsum_le := Multiset.single_le_sum (fun z hz => ?_) _ hterm
    · exact lt_of_lt_of_le hnbr_pos hsum_le
    · obtain ⟨w, -, rfl⟩ := Multiset.mem_map.mp hz
      unfold IPSRules.get_neighbor_reactivity
      apply List.sum_nonneg
      intro z hz
      obtain ⟨u, -, rfl⟩ := List.mem_map.mp hz
      exact voter_neighbor_nonneg K r (le_of_lt hr) _ _ _
  · intro huni
    apply Finset.sum_eq_zero
    intro i hi
    have hiN := Finset.mem_range.mp hi
    unfold scratchReactivity
    apply List.sum_eq_zero
    intro z hz
    obtain ⟨goal, -, rfl⟩ := List.mem_map.mp hz
    unfold IPSRules.get_mutation_rate
    have hvz : (VoterProcess K r).get_vacuum_mutation_rate (cfg.getD i 0) goal = 0 := rfl
    rw [hvz, zero_add]
    apply Multiset.sum_eq_zero
    intro w hw
    obtain ⟨s, hs, rfl⟩ := Multiset.mem_map.mp hw
    rw [Multiset.mem_coe] at hs
    obtain ⟨j, hj, rfl⟩ := List.mem_map.mp hs
    have hjN : j < G.nr_points := hsub i hiN j hj
    have hji : cfg.getD j 0 = cfg.getD i 0 := huni j hjN i hiN
    by_cases hg : goal = cfg.getD j 0
    · subst hg
      simp only [VoterProcess]
      rw [if_neg (not_not_intro rfl), if_pos hji.symm]
    · simp only [VoterProcess]
      rw [if_pos hg]

/-- Claim C8, witness: on the two-vertex edge graph with two parties and
change rate one, the split configuration has positive total reactivity
and the unanimous configuration has total reactivity zero. -/
theorem claim_C8_witness :
    0 < totalScratchReactivity (VoterProcess 2 1) pairGraph [0, 1]
      ∧ totalScratchReactivity (VoterProcess 2 1) pairGraph [0, 0] = 0 := by
  have hconn : ∀ i j, i < pairGraph.nr_points → j < pairGraph.nr_points →
      Relation.ReflTransGen (fun x y => y ∈ pairGraph.get_neighbors x) i j := by
    intro i j hi hj
    have hi2 : i < 2 := hi
    have hj2 : j < 2 := hj
    clear hi hj
    interval_cases i <;> interval_cases j
    · exact Relation.ReflTransGen.refl
    · exact Relation.ReflTransGen.single (by decide)
    · exact Relation.ReflTransGen.single (by decide)
    · exact Relation.ReflTransGen.refl
  have hedge : ∃ i, i < pairGraph.nr_points ∧ pairGraph.get_neighbors i ≠ [] :=
    ⟨0, by decide, by decide⟩
  constructor
  · exact (claim_C8_voter_reactivity 2 1 pairGraph [0, 1] (by norm_num) (by norm_num)
      (by decide) (fun i _ => pairGraph_sub i) hconn hedge).1 (by decide)
  · exact (claim_C8_voter_reactivity 2 1 pairGraph [0, 0] (by norm_num) (by norm_num)
      (by decide) (fun i _ => pairGraph_sub i) hconn hedge).2 (by decide)

